import Mathlib

/-!
Verification of the termweb backend (src/backend/src/main.rs): an in-memory
hierarchical filesystem driven by a shell-like command dispatcher. The
definitions below are a shallow embedding of the Rust source: `Node` mirrors
the `Node` enum (a `BTreeMap` is modelled as a key-sorted association list),
the `FileSystem` operations mirror the `impl FileSystem` methods, `tokenize`
and `resolve_path` mirror the free functions of the same names, and
`execute_command` mirrors the dispatcher (its per-command arms are split into
named helper functions, and the in-place mutation of `TerminalState` is
modelled by returning the new state next to the `CommandResponse`).
-/

set_option autoImplicit false

/-- Mirror of the Rust `Node` enum: a directory with named children (the
`BTreeMap<String, Node>` is modelled as an association list kept in key order
by the insertion primitive) or a file with textual content. -/
inductive Node where
  | dir (children : List (String × Node))
  | file (content : String)
deriving Repr

/-- Mirror of `BTreeMap::get`: first (and, in a well-formed map, only)
binding of `name`. -/
def getChild : List (String × Node) → String → Option Node
  | [], _ => none
  | (k, v) :: rest, name => if k = name then some v else getChild rest name

/-- Mirror of mutating through `BTreeMap::get_mut`: replace the value bound
to `name`, keeping every other binding. -/
def setChild : List (String × Node) → String → Node → List (String × Node)
  | [], _, _ => []
  | (k, v) :: rest, name, x =>
    if k = name then (k, x) :: rest else (k, v) :: setChild rest name x

/-- Mirror of `BTreeMap::insert` (as used on absent keys) /
`Entry::or_insert`: insert the binding at its key-ordered position, replacing
an equal key if one is found first. -/
def insertChild : List (String × Node) → String → Node → List (String × Node)
  | [], name, x => [(name, x)]
  | (k, v) :: rest, name, x =>
    if name < k then (name, x) :: (k, v) :: rest
    else if name = k then (name, x) :: rest
    else (k, v) :: insertChild rest name x

/-- Mirror of `FileSystem::get_node`: walk the segments from a node; `none`
when a segment is absent or an interior node is a file. -/
def getNode : Node → List String → Option Node
  | n, [] => some n
  | Node.dir children, seg :: rest =>
    match getChild children seg with
    | none => none
    | some child => getNode child rest
  | Node.file _, _ :: _ => none

/-- Mirror of `FileSystem::get_node_mut` followed by a mutation `f` of the
node found at `path`: `none` when the walk fails (as `get_node_mut` returning
`None`), otherwise the result of `f`, with an `Except.ok` rebuilding the tree
along the walked path. -/
def modifyAt (n : Node) (path : List String) (f : Node → Except String Node) :
    Option (Except String Node) :=
  match path with
  | [] => some (f n)
  | seg :: rest =>
    match n with
    | Node.file _ => none
    | Node.dir children =>
      match getChild children seg with
      | none => none
      | some child =>
        match modifyAt child rest f with
        | none => none
        | some (Except.error e) => some (Except.error e)
        | some (Except.ok child2) =>
          some (Except.ok (Node.dir (setChild children seg child2)))

/-- `true` on a directory node (Rust `matches!(node, Node::Dir { .. })`). -/
def isDirB : Node → Bool
  | Node.dir _ => true
  | Node.file _ => false

/-- Mirror of the Rust `FileSystem` struct: a single root node. -/
structure FileSystem where
  root : Node
deriving Repr

/-- Mirror of the Rust `TerminalState`: filesystem plus cwd segments. -/
structure TerminalState where
  fs : FileSystem
  cwd : List String
deriving Repr

/-- Mirror of the Rust `CommandResponse` record. -/
structure CommandResponse where
  output : String
  cwd : String
  status : String
  clear : Bool
deriving Repr, DecidableEq

instance {α β : Type} [DecidableEq α] [DecidableEq β] : DecidableEq (Except α β) :=
  fun x y =>
    match x, y with
    | Except.error a, Except.error b =>
      if h : a = b then isTrue (by rw [h])
      else isFalse (by intro hc; cases hc; exact h rfl)
    | Except.error _, Except.ok _ => isFalse (by intro hc; cases hc)
    | Except.ok _, Except.error _ => isFalse (by intro hc; cases hc)
    | Except.ok a, Except.ok b =>
      if h : a = b then isTrue (by rw [h])
      else isFalse (by intro hc; cases hc; exact h rfl)

/-- Mirror of Rust `char::is_whitespace`: the Unicode `White_Space` property
(U+0009–U+000D, U+0020, U+0085, U+00A0, U+1680, U+2000–U+200A, U+2028,
U+2029, U+202F, U+205F, U+3000). -/
def isRustWhitespace (c : Char) : Bool :=
  (0x9 ≤ c.toNat && c.toNat ≤ 0xD) || c.toNat = 0x20 || c.toNat = 0x85 ||
  c.toNat = 0xA0 || c.toNat = 0x1680 ||
  (0x2000 ≤ c.toNat && c.toNat ≤ 0x200A) || c.toNat = 0x2028 ||
  c.toNat = 0x2029 || c.toNat = 0x202F || c.toNat = 0x205F ||
  c.toNat = 0x3000

/-- Mirror of `tokenize`'s character loop: `cs` are the remaining characters,
`current` the token being built, `quote` the active quote character. -/
def tokenizeGo : List Char → String → Option Char → Except String (List String)
  | [], _, some _ => Except.error "Unclosed quote"
  | [], current, none =>
    Except.ok (if current = "" then [] else [current])
  | ch :: rest, current, some active =>
    if ch = active then tokenizeGo rest current none
    else tokenizeGo rest (current.push ch) (some active)
  | ch :: rest, current, none =>
    if ch = Char.ofNat 39 ∨ ch = '"' then tokenizeGo rest current (some ch)
    else if isRustWhitespace ch then
      if current = "" then tokenizeGo rest "" none
      else (tokenizeGo rest "" none).map (fun ts => current :: ts)
    else tokenizeGo rest (current.push ch) none

/-- Mirror of the Rust `tokenize` function. -/
def tokenize (input : String) : Except String (List String) :=
  tokenizeGo input.data "" none

/-- A character of the input as the specification describes it after quote
processing: either a literal character destined for a token, or an unquoted
whitespace separator. -/
inductive AnnChar where
  | lit (c : Char)
  | sep

/-- Spec-side quote-span scan, following the specification's words: a single
or double quote opens a literal span that ends at the next occurrence of the
same quote character; quote characters are not emitted; characters inside a
span are literal; unquoted whitespace is a separator; no escape sequences
are interpreted; if input ends while a span is open the call fails with
`Unclosed quote` and produces no marks. -/
def specScan : List Char → Option Char → Except String (List AnnChar)
  | [], none => Except.ok []
  | [], some _ => Except.error "Unclosed quote"
  | c :: rest, some active =>
    if c = active then specScan rest none
    else (specScan rest (some active)).map (fun l => AnnChar.lit c :: l)
  | c :: rest, none =>
    if c = Char.ofNat 39 ∨ c = '"' then specScan rest (some c)
    else if isRustWhitespace c then
      (specScan rest none).map (fun l => AnnChar.sep :: l)
    else (specScan rest none).map (fun l => AnnChar.lit c :: l)

/-- Spec-side splitting, following the specification's words: the marked
input is split on runs of separators, adjacent literal characters forming
one token, so that runs of unquoted whitespace separate tokens and empty
pieces vanish. -/
def specSplit : List AnnChar → List String
  | [] => []
  | AnnChar.sep :: rest => specSplit rest
  | AnnChar.lit c :: rest =>
    match rest with
    | AnnChar.lit _ :: _ =>
      match specSplit rest with
      | t :: ts => (String.singleton c ++ t) :: ts
      | [] => [String.singleton c]
    | _ => String.singleton c :: specSplit rest

/-- `specSplit` with a partial token `cur` already accumulated to the left:
the bridge between the implementation's accumulator and the spec's
two-phase description. -/
def mergeCur (cur : String) (anns : List AnnChar) : List String :=
  if cur = "" then specSplit anns
  else
    match anns with
    | AnnChar.lit _ :: _ =>
      match specSplit anns with
      | t :: ts => (cur ++ t) :: ts
      | [] => [cur]
    | _ => cur :: specSplit anns

/-- The quote automaton alone: the state (`none` = no span open, `some c` =
a span opened by `c` is open) after scanning the characters. -/
def quoteState : List Char → Option Char → Option Char
  | [], q => q
  | c :: rest, some active =>
    quoteState rest (if c = active then none else some active)
  | c :: rest, none =>
    quoteState rest (if c = Char.ofNat 39 ∨ c = '"' then some c else none)

/-- Character-level split on `/`, mirroring Rust `str::split('/')` (and
agreeing with `String.splitOn "/"`); defined structurally so that it reduces
inside the kernel. -/
def splitSlash : List Char → String → List String
  | [], acc => [acc]
  | c :: rest, acc =>
    if c = '/' then acc :: splitSlash rest "" else splitSlash rest (acc.push c)

/-- Mirror of Rust `str::starts_with('/')`, defined structurally. -/
def startsWithSlash (input : String) : Bool :=
  match input.data with
  | [] => false
  | c :: _ => c = '/'

/-- Mirror of the Rust `resolve_path` function: purely syntactic
normalisation of a raw path against the cwd segments. -/
def resolve_path (cwd : List String) (input : String) : List String :=
  let start := if startsWithSlash input then [] else cwd
  (splitSlash input.data "").foldl
    (fun parts segment =>
      if segment = "" ∨ segment = "." then parts
      else if segment = ".." then parts.dropLast
      else parts ++ [segment])
    start

/-- Mirror of `TerminalState::cwd_string`. -/
def TerminalState.cwd_string (st : TerminalState) : String :=
  if st.cwd = [] then "/" else "/" ++ String.intercalate "/" st.cwd

/-- Mirror of `FileSystem::is_dir`. -/
def FileSystem.is_dir (fs : FileSystem) (path : List String) :
    Except String Bool :=
  match getNode fs.root path with
  | some (Node.dir _) => Except.ok true
  | some (Node.file _) => Except.ok false
  | none => Except.error "Path not found"

/-- Mirror of `FileSystem::list`: directory entries in map (key) order, `/`
suffix on directories, joined by two spaces; a file lists as the path's last
segment; absent paths fail. -/
def FileSystem.list (fs : FileSystem) (path : List String) :
    Except String String :=
  match getNode fs.root path with
  | some (Node.dir children) =>
    Except.ok (String.intercalate "  "
      (children.map (fun e => e.1 ++ (if isDirB e.2 then "/" else ""))))
  | some (Node.file _) => Except.ok ((path.getLast?).getD "")
  | none => Except.error "Path not found"

/-- The mutation `mkdir` performs on the parent node (the body of the Rust
`match parent_node` in `FileSystem::mkdir`). -/
def mkdirChild (name : String) : Node → Except String Node
  | Node.dir children =>
    match getChild children name with
    | some _ => Except.error "mkdir: already exists"
    | none => Except.ok (Node.dir (insertChild children name (Node.dir [])))
  | Node.file _ => Except.error "mkdir: parent is not a directory"

/-- Mirror of `FileSystem::mkdir`. -/
def FileSystem.mkdir (fs : FileSystem) (path : List String) :
    Except String FileSystem :=
  match path.getLast? with
  | none => Except.error "mkdir: invalid path"
  | some name =>
    match modifyAt fs.root path.dropLast (mkdirChild name) with
    | none => Except.error "mkdir: parent not found"
    | some (Except.error m) => Except.error m
    | some (Except.ok root2) => Except.ok ⟨root2⟩

/-- The mutation `touch` performs on the parent node. -/
def touchChild (name : String) : Node → Except String Node
  | Node.dir children =>
    match getChild children name with
    | some (Node.dir _) => Except.error "touch: is a directory"
    | some (Node.file _) => Except.ok (Node.dir children)
    | none => Except.ok (Node.dir (insertChild children name (Node.file "")))
  | Node.file _ => Except.error "touch: parent is not a directory"

/-- Mirror of `FileSystem::touch`. -/
def FileSystem.touch (fs : FileSystem) (path : List String) :
    Except String FileSystem :=
  match path.getLast? with
  | none => Except.error "touch: invalid path"
  | some name =>
    match modifyAt fs.root path.dropLast (touchChild name) with
    | none => Except.error "touch: parent not found"
    | some (Except.error m) => Except.error m
    | some (Except.ok root2) => Except.ok ⟨root2⟩

/-- Mirror of `FileSystem::read_file`. -/
def FileSystem.read_file (fs : FileSystem) (path : List String) :
    Except String String :=
  match getNode fs.root path with
  | some (Node.file content) => Except.ok content
  | some (Node.dir _) => Except.error "cat: is a directory"
  | none => Except.error "cat: file not found"

/-- The mutation `write_file` performs on the parent node (Rust
`entry().or_insert` followed by the match on the entry). -/
def writeChild (name content : String) (app : Bool) : Node → Except String Node
  | Node.dir children =>
    match getChild children name with
    | some (Node.dir _) => Except.error "echo: target is a directory"
    | some (Node.file old) =>
      Except.ok (Node.dir (setChild children name (Node.file
        (if app ∧ ¬ old = "" then old ++ "\n" ++ content
         else if ¬ app then content
         else old ++ content))))
    | none =>
      Except.ok (Node.dir (insertChild children name (Node.file content)))
  | Node.file _ => Except.error "echo: parent is not a directory"

/-- Mirror of `FileSystem::write_file`. -/
def FileSystem.write_file (fs : FileSystem) (path : List String)
    (content : String) (app : Bool) : Except String FileSystem :=
  match path.getLast? with
  | none => Except.error "echo: invalid path"
  | some name =>
    match modifyAt fs.root path.dropLast (writeChild name content app) with
    | none => Except.error "echo: parent not found"
    | some (Except.error m) => Except.error m
    | some (Except.ok root2) => Except.ok ⟨root2⟩

/-- The `help` output of the dispatcher (the joined literal array). -/
def helpText : String :=
  "Available commands:\n  pwd\n  ls [path]\n  cd [path]\n  mkdir <name>...\n  touch <name>...\n  cat <file>...\n  echo <text> [> file | >> file]\n  clear\n  help"

/-- The `for arg in args` loop of the `mkdir` arm: apply each argument left
to right, stopping at (and returning) the first failure message; the
filesystem returned reflects every argument applied before the stop. -/
def runMkdirArgs (fs : FileSystem) (cwd : List String) :
    List String → FileSystem × Option String
  | [] => (fs, none)
  | arg :: rest =>
    match FileSystem.mkdir fs (resolve_path cwd arg) with
    | Except.error m => (fs, some m)
    | Except.ok fs2 => runMkdirArgs fs2 cwd rest

/-- The `for arg in args` loop of the `touch` arm. -/
def runTouchArgs (fs : FileSystem) (cwd : List String) :
    List String → FileSystem × Option String
  | [] => (fs, none)
  | arg :: rest =>
    match FileSystem.touch fs (resolve_path cwd arg) with
    | Except.error m => (fs, some m)
    | Except.ok fs2 => runTouchArgs fs2 cwd rest

/-- The collection loop of the `cat` arm: read each argument in order; the
first failure discards everything collected and is returned alone. -/
def catArgs (fs : FileSystem) (cwd : List String) :
    List String → Except String (List String)
  | [] => Except.ok []
  | arg :: rest =>
    match FileSystem.read_file fs (resolve_path cwd arg) with
    | Except.error m => Except.error m
    | Except.ok c =>
      match catArgs fs cwd rest with
      | Except.error m => Except.error m
      | Except.ok ps => Except.ok (c :: ps)

/-- The `ls` arm of the dispatcher. -/
def lsArm (st : TerminalState) (args : List String) :
    TerminalState × CommandResponse :=
  let target := (args.get? 0).getD ""
  let path := if target = "" then st.cwd else resolve_path st.cwd target
  match FileSystem.list st.fs path with
  | Except.ok listing => (st, ⟨listing, st.cwd_string, "ok", false⟩)
  | Except.error m => (st, ⟨m, st.cwd_string, "error", false⟩)

/-- The `cd` arm of the dispatcher. -/
def cdArm (st : TerminalState) (args : List String) :
    TerminalState × CommandResponse :=
  let target := (args.get? 0).getD "/"
  let path := resolve_path st.cwd target
  match FileSystem.is_dir st.fs path with
  | Except.ok true =>
    let st2 : TerminalState := { st with cwd := path }
    (st2, ⟨"", st2.cwd_string, "ok", false⟩)
  | Except.ok false => (st, ⟨"Not a directory", st.cwd_string, "error", false⟩)
  | Except.error m => (st, ⟨m, st.cwd_string, "error", false⟩)

/-- The `mkdir` arm of the dispatcher. -/
def mkdirArm (st : TerminalState) (args : List String) :
    TerminalState × CommandResponse :=
  if args = [] then
    (st, ⟨"mkdir: missing operand", st.cwd_string, "error", false⟩)
  else
    let r := runMkdirArgs st.fs st.cwd args
    let st2 : TerminalState := { st with fs := r.1 }
    match r.2 with
    | none => (st2, ⟨"", st2.cwd_string, "ok", false⟩)
    | some m => (st2, ⟨m, st2.cwd_string, "error", false⟩)

/-- The `touch` arm of the dispatcher. -/
def touchArm (st : TerminalState) (args : List String) :
    TerminalState × CommandResponse :=
  if args = [] then
    (st, ⟨"touch: missing operand", st.cwd_string, "error", false⟩)
  else
    let r := runTouchArgs st.fs st.cwd args
    let st2 : TerminalState := { st with fs := r.1 }
    match r.2 with
    | none => (st2, ⟨"", st2.cwd_string, "ok", false⟩)
    | some m => (st2, ⟨m, st2.cwd_string, "error", false⟩)

/-- The `cat` arm of the dispatcher. -/
def catArm (st : TerminalState) (args : List String) :
    TerminalState × CommandResponse :=
  if args = [] then
    (st, ⟨"cat: missing operand", st.cwd_string, "error", false⟩)
  else
    match catArgs st.fs st.cwd args with
    | Except.ok parts =>
      (st, ⟨String.intercalate "\n" parts, st.cwd_string, "ok", false⟩)
    | Except.error m => (st, ⟨m, st.cwd_string, "error", false⟩)

/-- The `echo` arm of the dispatcher: search for the first `>`/`>>` token;
without one, echo the arguments; with one, write the tokens before it to the
token after it. -/
def echoArm (st : TerminalState) (args : List String) :
    TerminalState × CommandResponse :=
  match args.findIdx? (fun t => t = ">" ∨ t = ">>") with
  | none => (st, ⟨String.intercalate " " args, st.cwd_string, "ok", false⟩)
  | some pos =>
    if args.length ≤ pos + 1 then
      (st, ⟨"echo: missing file operand", st.cwd_string, "error", false⟩)
    else
      let content := String.intercalate " " (args.take pos)
      let target := (args.get? (pos + 1)).getD ""
      let path := resolve_path st.cwd target
      let app := decide ((args.get? pos).getD "" = ">>")
      match FileSystem.write_file st.fs path content app with
      | Except.error m => (st, ⟨m, st.cwd_string, "error", false⟩)
      | Except.ok fs2 =>
        let st2 : TerminalState := { st with fs := fs2 }
        (st2, ⟨"", st2.cwd_string, "ok", false⟩)

/-- The dispatcher's match on the first token. -/
def dispatch (st : TerminalState) (cmd : String) (args : List String) :
    TerminalState × CommandResponse :=
  if cmd = "help" then (st, ⟨helpText, st.cwd_string, "ok", false⟩)
  else if cmd = "pwd" then (st, ⟨st.cwd_string, st.cwd_string, "ok", false⟩)
  else if cmd = "ls" then lsArm st args
  else if cmd = "cd" then cdArm st args
  else if cmd = "mkdir" then mkdirArm st args
  else if cmd = "touch" then touchArm st args
  else if cmd = "cat" then catArm st args
  else if cmd = "echo" then echoArm st args
  else if cmd = "clear" then (st, ⟨"", st.cwd_string, "ok", true⟩)
  else (st, ⟨"Unknown command: " ++ cmd, st.cwd_string, "error", false⟩)

/-- Mirror of `execute_command`: the Rust function mutates `state` and
returns the response; here the new state is returned alongside it. -/
def execute_command (st : TerminalState) (input : String) :
    TerminalState × CommandResponse :=
  if input = "" then (st, ⟨"", st.cwd_string, "ok", false⟩)
  else
    match tokenize input with
    | Except.error message => (st, ⟨message, st.cwd_string, "error", false⟩)
    | Except.ok [] => (st, ⟨"", st.cwd_string, "ok", false⟩)
    | Except.ok (cmd :: args) => dispatch st cmd args

/-- The initial server state (`TerminalState::default()`): empty root
directory, cwd at root. -/
def initialState : TerminalState := ⟨⟨Node.dir []⟩, []⟩

/-- Well-formedness of a tree as the Rust representation guarantees it:
every directory's association list is strictly increasing in its keys (the
`BTreeMap` order), recursively. -/
def WFb : Node → Bool
  | Node.file _ => true
  | Node.dir [] => true
  | Node.dir ((k, n) :: rest) =>
    WFb n && WFb (Node.dir rest) &&
      (match rest with
       | [] => true
       | (k2, _) :: _ => decide (k < k2))

/-- `true` when `k` occurs among the keys of the association list. -/
def keyMem (k : String) : List (String × Node) → Bool
  | [] => false
  | (k2, _) :: rest => k2 = k || keyMem k rest

/-- Uniqueness of names among every directory's children, recursively. -/
def uniqb : Node → Bool
  | Node.file _ => true
  | Node.dir [] => true
  | Node.dir ((k, n) :: rest) =>
    !(keyMem k rest) && uniqb n && uniqb (Node.dir rest)

lemma getChild_setChild_self {l : List (String × Node)} {k : String}
    {v x : Node} (h : getChild l k = some v) :
    getChild (setChild l k x) k = some x := by
  induction l with
  | nil => simp [getChild] at h
  | cons e rest ih =>
    obtain ⟨k1, v1⟩ := e
    by_cases hk : k1 = k
    · subst hk
      simp [getChild, setChild]
    · simp [getChild, setChild, hk] at h ⊢
      exact ih h

lemma getChild_setChild_ne {l : List (String × Node)} {k s : String}
    {x : Node} (h : s ≠ k) :
    getChild (setChild l k x) s = getChild l s := by
  induction l with
  | nil => simp [setChild]
  | cons e rest ih =>
    obtain ⟨k1, v1⟩ := e
    by_cases hk : k1 = k
    · subst hk
      have hns : ¬ k1 = s := fun hc => h hc.symm
      simp [getChild, setChild, hns]
    · by_cases hs : k1 = s
      · subst hs
        simp [getChild, setChild, hk]
      · simp [getChild, setChild, hk, hs, ih]

lemma setChild_self {l : List (String × Node)} {k : String} {v : Node}
    (h : getChild l k = some v) : setChild l k v = l := by
  induction l with
  | nil => simp [getChild] at h
  | cons e rest ih =>
    obtain ⟨k1, v1⟩ := e
    by_cases hk : k1 = k
    · subst hk
      simp [getChild] at h
      simp [setChild, h]
    · simp [getChild, hk] at h
      simp [setChild, hk, ih h]

lemma keys_setChild {l : List (String × Node)} {k : String} {x : Node} :
    (setChild l k x).map Prod.fst = l.map Prod.fst := by
  induction l with
  | nil => simp [setChild]
  | cons e rest ih =>
    obtain ⟨k1, v1⟩ := e
    by_cases hk : k1 = k
    · simp [setChild, hk]
    · simp [setChild, hk, ih]

lemma getChild_insertChild_self {l : List (String × Node)} {k : String}
    {x : Node} (h : getChild l k = none) :
    getChild (insertChild l k x) k = some x := by
  induction l with
  | nil => simp [insertChild, getChild]
  | cons e rest ih =>
    obtain ⟨k1, v1⟩ := e
    by_cases h1 : k1 = k
    · subst h1
      simp [getChild] at h
    · simp [getChild, h1] at h
      by_cases hlt : k < k1
      · simp [insertChild, hlt, getChild]
      · have hne : ¬ k = k1 := fun hc => h1 hc.symm
        simp [insertChild, hlt, hne, getChild, h1]
        exact ih h

lemma getChild_insertChild_ne {l : List (String × Node)} {k s : String}
    {x : Node} (h : s ≠ k) :
    getChild (insertChild l k x) s = getChild l s := by
  induction l with
  | nil =>
    have hns : ¬ k = s := fun hc => h hc.symm
    simp [insertChild, getChild, hns]
  | cons e rest ih =>
    obtain ⟨k1, v1⟩ := e
    have hks : ¬ k = s := fun hc => h hc.symm
    by_cases hlt : k < k1
    · simp [insertChild, hlt, getChild, hks]
    · by_cases heq : k = k1
      · subst heq
        simp [insertChild, hlt, getChild, hks]
      · simp [insertChild, hlt, heq, getChild, ih]

lemma getNode_append (n : Node) (p q : List String) :
    getNode n (p ++ q) = (getNode n p).bind (fun m => getNode m q) := by
  induction p generalizing n with
  | nil => simp [getNode]
  | cons seg rest ih =>
    cases n with
    | file c => simp [getNode]
    | dir children =>
      simp only [List.cons_append, getNode]
      cases getChild children seg with
      | none => simp
      | some child => simp [ih]

lemma modifyAt_none_iff (n : Node) (p : List String)
    (f : Node → Except String Node) :
    modifyAt n p f = none ↔ getNode n p = none := by
  induction p generalizing n with
  | nil => simp [modifyAt, getNode]
  | cons seg rest ih =>
    cases n with
    | file c => simp [modifyAt, getNode]
    | dir children =>
      simp only [modifyAt, getNode]
      cases getChild children seg with
      | none => simp
      | some child =>
        simp only []
        rw [← ih child]
        cases hrec : modifyAt child rest f with
        | none => simp
        | some r =>
          cases r with
          | error e => simp
          | ok c2 => simp

lemma modifyAt_error_iff (n : Node) (p : List String)
    (f : Node → Except String Node) (e : String) :
    modifyAt n p f = some (Except.error e) ↔
      ∃ m, getNode n p = some m ∧ f m = Except.error e := by
  induction p generalizing n with
  | nil => simp [modifyAt, getNode]
  | cons seg rest ih =>
    cases n with
    | file c => simp [modifyAt, getNode]
    | dir children =>
      simp only [modifyAt, getNode]
      cases getChild children seg with
      | none => simp
      | some child =>
        simp only []
        rw [← ih child]
        cases hrec : modifyAt child rest f with
        | none => simp
        | some r =>
          cases r with
          | error e2 => simp
          | ok c2 => simp

lemma modifyAt_ok (n : Node) (p : List String)
    (f : Node → Except String Node) (n2 : Node)
    (h : modifyAt n p f = some (Except.ok n2)) :
    ∃ m m2, getNode n p = some m ∧ f m = Except.ok m2 ∧
      ∀ q, getNode n2 (p ++ q) = getNode m2 q := by
  induction p generalizing n n2 with
  | nil =>
    simp only [modifyAt] at h
    refine ⟨n, n2, by simp [getNode], ?_, by simp [getNode]⟩
    cases hf : f n <;> rw [hf] at h <;> simp_all
  | cons seg rest ih =>
    cases n with
    | file c => simp [modifyAt] at h
    | dir children =>
      simp only [modifyAt] at h
      split at h
      · simp at h
      · rename_i child hg
        split at h
        · simp at h
        · simp at h
        · rename_i child2 hrec
          simp only [Option.some.injEq, Except.ok.injEq] at h
          subst h
          obtain ⟨m, m2, hm, hf, hq⟩ := ih child child2 hrec
          refine ⟨m, m2, ?_, hf, ?_⟩
          · simp [getNode, hg, hm]
          · intro q
            simp only [List.cons_append, getNode,
              getChild_setChild_self hg]
            exact hq q

lemma modifyAt_id (n : Node) (p : List String)
    (f : Node → Except String Node) (m : Node)
    (h1 : getNode n p = some m) (h2 : f m = Except.ok m) :
    modifyAt n p f = some (Except.ok n) := by
  induction p generalizing n with
  | nil =>
    simp [getNode] at h1
    subst h1
    simp [modifyAt, h2]
  | cons seg rest ih =>
    cases n with
    | file c => simp [getNode] at h1
    | dir children =>
      simp only [getNode] at h1
      cases hg : getChild children seg with
      | none => rw [hg] at h1; simp at h1
      | some child =>
        rw [hg] at h1
        simp only [modifyAt, hg, ih child h1]
        rw [setChild_self hg]

lemma modifyAt_mono {f : Node → Except String Node}
    (hf : ∀ m m2, f m = Except.ok m2 →
      ∀ q, (getNode m q).isSome → (getNode m2 q).isSome) :
    ∀ (p : List String) (n n2 : Node),
      modifyAt n p f = some (Except.ok n2) →
      ∀ q, (getNode n q).isSome → (getNode n2 q).isSome := by
  intro p
  induction p with
  | nil =>
    intro n n2 h q hq
    simp only [modifyAt, Option.some.injEq] at h
    exact hf n n2 h q hq
  | cons seg rest ih =>
    intro n n2 h q hq
    cases n with
    | file c => simp [modifyAt] at h
    | dir children =>
      simp only [modifyAt] at h
      split at h
      · simp at h
      · rename_i child hg
        split at h
        · simp at h
        · simp at h
        · rename_i child2 hrec
          simp only [Option.some.injEq, Except.ok.injEq] at h
          subst h
          cases q with
          | nil => simp [getNode]
          | cons s qs =>
            by_cases hs : s = seg
            · subst hs
              simp only [getNode, hg] at hq
              simp only [getNode, getChild_setChild_self hg]
              exact ih child child2 hrec qs hq
            · simp only [getNode, getChild_setChild_ne hs] at hq ⊢
              exact hq

lemma modifyAt_rev {f : Node → Except String Node} (P : List String → Prop)
    (hf : ∀ m m2 q, f m = Except.ok m2 → (getNode m2 q).isSome →
      (getNode m q).isSome ∨ P q) :
    ∀ (p : List String) (n n2 : Node),
      modifyAt n p f = some (Except.ok n2) →
      ∀ q, (getNode n2 q).isSome →
        (getNode n q).isSome ∨ ∃ q2, q = p ++ q2 ∧ P q2 := by
  intro p
  induction p with
  | nil =>
    intro n n2 h q hq
    simp only [modifyAt, Option.some.injEq] at h
    rcases hf n n2 q h hq with hl | hr
    · exact Or.inl hl
    · exact Or.inr ⟨q, by simp, hr⟩
  | cons seg rest ih =>
    intro n n2 h q hq
    cases n with
    | file c => simp [modifyAt] at h
    | dir children =>
      simp only [modifyAt] at h
      split at h
      · simp at h
      · rename_i child hg
        split at h
        · simp at h
        · simp at h
        · rename_i child2 hrec
          simp only [Option.some.injEq, Except.ok.injEq] at h
          subst h
          cases q with
          | nil => exact Or.inl (by simp [getNode])
          | cons s qs =>
            by_cases hs : s = seg
            · subst hs
              simp only [getNode, getChild_setChild_self hg] at hq
              simp only [getNode, hg]
              rcases ih child child2 hrec qs hq with hl | ⟨q2, hq2, hp⟩
              · exact Or.inl hl
              · exact Or.inr ⟨q2, by simp [hq2], hp⟩
            · simp only [getNode, getChild_setChild_ne hs] at hq
              simp only [getNode]
              exact Or.inl hq

lemma modifyAt_isdir {f : Node → Except String Node}
    (hf : ∀ m m2, f m = Except.ok m2 → isDirB m2 = true)
    (p : List String) (n n2 : Node)
    (h : modifyAt n p f = some (Except.ok n2)) : isDirB n2 = true := by
  cases p with
  | nil =>
    simp only [modifyAt, Option.some.injEq] at h
    exact hf n n2 h
  | cons seg rest =>
    cases n with
    | file c => simp [modifyAt] at h
    | dir children =>
      simp only [modifyAt] at h
      split at h
      · simp at h
      · split at h
        · simp at h
        · simp at h
        · simp only [Option.some.injEq, Except.ok.injEq] at h
          subst h
          rfl

lemma key_lt_of_WFb :
    ∀ (rest : List (String × Node)) (k : String) (n : Node),
      WFb (Node.dir ((k, n) :: rest)) = true → ∀ e ∈ rest, k < e.1 := by
  intro rest
  induction rest with
  | nil => intro k n _ e he; simp at he
  | cons e2 r2 ih =>
    intro k n h e he
    obtain ⟨k2, v2⟩ := e2
    simp only [WFb, Bool.and_eq_true, decide_eq_true_eq] at h
    obtain ⟨⟨hn, hr⟩, hlt⟩ := h
    rcases List.mem_cons.mp he with he | he
    · rw [he]; exact hlt
    · have hk2 := ih k2 v2 hr e he
      exact lt_trans hlt hk2

lemma keyMem_false_of_lt {l : List (String × Node)} {k : String}
    (h : ∀ e ∈ l, k < e.1) : keyMem k l = false := by
  induction l with
  | nil => simp [keyMem]
  | cons e rest ih =>
    obtain ⟨k2, v2⟩ := e
    have hk2 : k < k2 := h (k2, v2) (by simp)
    have hne : ¬ k2 = k := fun hc => absurd hk2 (by simp [hc])
    simp only [keyMem, Bool.or_eq_false_iff]
    exact ⟨by simp [hne], ih (fun e he => h e (by simp [he]))⟩

lemma WFb_parts {k1 : String} {n1 : Node} {rest : List (String × Node)}
    (hw : WFb (Node.dir ((k1, n1) :: rest)) = true) :
    WFb n1 = true ∧ WFb (Node.dir rest) = true := by
  cases rest with
  | nil =>
    simp [WFb] at hw
    simp [hw, WFb]
  | cons e2 r2 =>
    obtain ⟨k2, v2⟩ := e2
    simp only [WFb, Bool.and_eq_true] at hw
    exact ⟨hw.1.1, hw.1.2⟩

lemma WFb_getChild :
    ∀ {l : List (String × Node)} {k : String} {v : Node},
      WFb (Node.dir l) = true → getChild l k = some v → WFb v = true := by
  intro l
  induction l with
  | nil => intro k v _ hg; simp [getChild] at hg
  | cons e rest ih =>
    intro k v hw hg
    obtain ⟨k1, n1⟩ := e
    obtain ⟨hn1, hr⟩ := WFb_parts hw
    by_cases hk : k1 = k
    · subst hk
      simp [getChild] at hg
      subst hg
      exact hn1
    · simp [getChild, hk] at hg
      exact ih hr hg

theorem WFb_uniq : ∀ (n : Node), WFb n = true → uniqb n = true
  | Node.file _, _ => by simp [uniqb]
  | Node.dir [], _ => by simp [uniqb]
  | Node.dir ((k, v) :: rest), h => by
    obtain ⟨hv, hr⟩ := WFb_parts h
    have hmem : keyMem k rest = false :=
      keyMem_false_of_lt (key_lt_of_WFb rest k v h)
    have hu1 := WFb_uniq v hv
    have hu2 := WFb_uniq (Node.dir rest) hr
    simp [uniqb, hmem, hu1, hu2]

lemma WFb_build {k1 : String} {n1 : Node} {rest : List (String × Node)}
    (h1 : WFb n1 = true) (h2 : WFb (Node.dir rest) = true)
    (h3 : ∀ k2 v2 r2, rest = (k2, v2) :: r2 → k1 < k2) :
    WFb (Node.dir ((k1, n1) :: rest)) = true := by
  cases rest with
  | nil => simp [WFb, h1]
  | cons e2 r2 =>
    obtain ⟨k2, v2⟩ := e2
    simp [WFb, h1, h2, h3 k2 v2 r2 rfl]

lemma WFb_headlt {k1 k2 : String} {n1 v2 : Node} {r2 : List (String × Node)}
    (hw : WFb (Node.dir ((k1, n1) :: (k2, v2) :: r2)) = true) : k1 < k2 := by
  simp only [WFb, Bool.and_eq_true, decide_eq_true_eq] at hw
  exact hw.2

lemma setChild_head (k2 k : String) (v2 x : Node) (r2 : List (String × Node)) :
    ∃ v3 r3, setChild ((k2, v2) :: r2) k x = (k2, v3) :: r3 := by
  by_cases hk : k2 = k
  · exact ⟨x, r2, by simp [setChild, hk]⟩
  · exact ⟨v2, setChild r2 k x, by simp [setChild, hk]⟩

lemma WFb_setChild :
    ∀ {l : List (String × Node)} {k : String} {x v0 : Node},
      WFb (Node.dir l) = true → getChild l k = some v0 → WFb x = true →
      WFb (Node.dir (setChild l k x)) = true := by
  intro l
  induction l with
  | nil => intro k x v0 _ hg; simp [getChild] at hg
  | cons e rest ih =>
    intro k x v0 hw hg hx
    obtain ⟨k1, n1⟩ := e
    obtain ⟨hn1, hr⟩ := WFb_parts hw
    by_cases hk : k1 = k
    · subst hk
      simp only [setChild, if_pos rfl]
      refine WFb_build hx hr ?_
      intro k2 v2 r2 he
      subst he
      exact WFb_headlt hw
    · simp only [getChild, if_neg hk] at hg
      simp only [setChild, if_neg hk]
      refine WFb_build hn1 (ih hr hg hx) ?_
      intro k2 v2 r2 he
      cases rest with
      | nil => simp [getChild] at hg
      | cons e2 r0 =>
        obtain ⟨k0, v00⟩ := e2
        obtain ⟨v3, r3, hs⟩ := setChild_head k0 k v00 x r0
        rw [hs] at he
        obtain ⟨he1, _⟩ := Prod.mk.injEq .. ▸ (List.cons.injEq .. ▸ he).1
        have hk0 : k1 < k0 := WFb_headlt hw
        cases he1
        exact hk0

lemma WFb_insertChild :
    ∀ {l : List (String × Node)} {k : String} {x : Node},
      WFb (Node.dir l) = true → getChild l k = none → WFb x = true →
      WFb (Node.dir (insertChild l k x)) = true := by
  intro l
  induction l with
  | nil =>
    intro k x _ _ hx
    simp only [insertChild]
    exact WFb_build hx (by simp [WFb]) (by intro k2 v2 r2 he; simp at he)
  | cons e rest ih =>
    intro k x hw hg hx
    obtain ⟨k1, n1⟩ := e
    obtain ⟨hn1, hr⟩ := WFb_parts hw
    have hk1 : ¬ k1 = k := by
      intro hc
      simp [getChild, hc] at hg
    have hgr : getChild rest k = none := by
      simpa [getChild, hk1] using hg
    by_cases hlt : k < k1
    · simp only [insertChild, if_pos hlt]
      refine WFb_build hx hw ?_
      intro k2 v2 r2 he
      obtain ⟨he1, _⟩ := Prod.mk.injEq .. ▸ (List.cons.injEq .. ▸ he).1
      cases he1
      exact hlt
    · have hne : ¬ k = k1 := fun hc => hk1 hc.symm
      have hgt : k1 < k := lt_of_le_of_ne (le_of_not_lt hlt) (fun hc => hk1 hc)
      simp only [insertChild, if_neg hlt, if_neg hne]
      refine WFb_build hn1 (ih hr hgr hx) ?_
      intro k2 v2 r2 he
      cases rest with
      | nil =>
        simp only [insertChild] at he
        obtain ⟨he1, _⟩ := Prod.mk.injEq .. ▸ (List.cons.injEq .. ▸ he).1
        cases he1
        exact hgt
      | cons e2 r0 =>
        obtain ⟨k0, v00⟩ := e2
        have hk0 : ¬ k = k0 := by
          intro hc
          simp [getChild, hc.symm] at hgr
        by_cases hlt0 : k < k0
        · simp only [insertChild, if_pos hlt0] at he
          obtain ⟨he1, _⟩ := Prod.mk.injEq .. ▸ (List.cons.injEq .. ▸ he).1
          cases he1
          exact hgt
        · simp only [insertChild, if_neg hlt0, if_neg hk0] at he
          obtain ⟨he1, _⟩ := Prod.mk.injEq .. ▸ (List.cons.injEq .. ▸ he).1
          cases he1
          exact WFb_headlt hw

lemma chain_of_WFb :
    ∀ (l : List (String × Node)), WFb (Node.dir l) = true →
      List.Chain' (fun a b => a < b) (l.map Prod.fst) := by
  intro l
  induction l with
  | nil => simp
  | cons e rest ih =>
    intro hw
    obtain ⟨k1, n1⟩ := e
    obtain ⟨hn1, hr⟩ := WFb_parts hw
    have hch := ih hr
    cases rest with
    | nil => simp
    | cons e2 r2 =>
      obtain ⟨k2, v2⟩ := e2
      exact List.Chain'.cons (WFb_headlt hw) hch

lemma modifyAt_WF {f : Node → Except String Node}
    (hf : ∀ m m2, WFb m = true → f m = Except.ok m2 → WFb m2 = true) :
    ∀ (p : List String) (n n2 : Node),
      modifyAt n p f = some (Except.ok n2) →
      WFb n = true → WFb n2 = true := by
  intro p
  induction p with
  | nil =>
    intro n n2 h hw
    simp only [modifyAt, Option.some.injEq] at h
    exact hf n n2 hw h
  | cons seg rest ih =>
    intro n n2 h hw
    cases n with
    | file c => simp [modifyAt] at h
    | dir children =>
      simp only [modifyAt] at h
      split at h
      · simp at h
      · rename_i child hg
        split at h
        · simp at h
        · simp at h
        · rename_i child2 hrec
          simp only [Option.some.injEq, Except.ok.injEq] at h
          subst h
          have hchild : WFb child = true := WFb_getChild hw hg
          have hchild2 : WFb child2 = true := ih child child2 hrec hchild
          exact WFb_setChild hw hg hchild2

lemma mkdirChild_ok {name : String} {m m2 : Node}
    (h : mkdirChild name m = Except.ok m2) :
    ∃ ch, m = Node.dir ch ∧ getChild ch name = none ∧
      m2 = Node.dir (insertChild ch name (Node.dir [])) := by
  cases m with
  | file c => simp [mkdirChild] at h
  | dir ch =>
    cases hg : getChild ch name with
    | some v => simp [mkdirChild, hg] at h
    | none =>
      simp [mkdirChild, hg] at h
      exact ⟨ch, rfl, hg, h.symm⟩

lemma touchChild_ok {name : String} {m m2 : Node}
    (h : touchChild name m = Except.ok m2) :
    ∃ ch, m = Node.dir ch ∧
      (((∃ c, getChild ch name = some (Node.file c)) ∧ m2 = Node.dir ch) ∨
       (getChild ch name = none ∧
        m2 = Node.dir (insertChild ch name (Node.file "")))) := by
  cases m with
  | file c => simp [touchChild] at h
  | dir ch =>
    cases hg : getChild ch name with
    | some v =>
      cases v with
      | dir ch2 => simp [touchChild, hg] at h
      | file c =>
        simp [touchChild, hg] at h
        exact ⟨ch, rfl, Or.inl ⟨⟨c, hg⟩, h.symm⟩⟩
    | none =>
      simp [touchChild, hg] at h
      exact ⟨ch, rfl, Or.inr ⟨hg, h.symm⟩⟩

lemma writeChild_ok {name content : String} {app : Bool} {m m2 : Node}
    (h : writeChild name content app m = Except.ok m2) :
    ∃ ch, m = Node.dir ch ∧
      ((∃ old, getChild ch name = some (Node.file old) ∧
          m2 = Node.dir (setChild ch name (Node.file
            (if app ∧ ¬ old = "" then old ++ "\n" ++ content
             else if ¬ app then content
             else old ++ content)))) ∨
       (getChild ch name = none ∧
        m2 = Node.dir (insertChild ch name (Node.file content)))) := by
  cases m with
  | file c => simp [writeChild] at h
  | dir ch =>
    cases hg : getChild ch name with
    | some v =>
      cases v with
      | dir ch2 => simp [writeChild, hg] at h
      | file old =>
        simp only [writeChild, hg, Except.ok.injEq] at h
        exact ⟨ch, rfl, Or.inl ⟨old, hg, h.symm⟩⟩
    | none =>
      simp only [writeChild, hg, Except.ok.injEq] at h
      exact ⟨ch, rfl, Or.inr ⟨hg, h.symm⟩⟩

lemma getNode_nil_dir {qs : List String}
    (h : (getNode (Node.dir []) qs).isSome = true) : qs = [] := by
  cases qs with
  | nil => rfl
  | cons t ts => simp [getNode, getChild] at h

lemma getNode_file {c : String} {qs : List String}
    (h : (getNode (Node.file c) qs).isSome = true) : qs = [] := by
  cases qs with
  | nil => rfl
  | cons t ts => simp [getNode] at h

lemma insert_mono {ch : List (String × Node)} {name : String} {x : Node}
    (hg : getChild ch name = none) :
    ∀ q, (getNode (Node.dir ch) q).isSome = true →
      (getNode (Node.dir (insertChild ch name x)) q).isSome = true := by
  intro q hq
  cases q with
  | nil => simp [getNode]
  | cons s qs =>
    simp only [getNode] at hq ⊢
    by_cases hs : s = name
    · subst hs
      rw [hg] at hq
      simp at hq
    · rw [getChild_insertChild_ne hs]
      exact hq

lemma insert_rev {ch : List (String × Node)} {name : String} {x : Node}
    (hg : getChild ch name = none)
    (hnew : ∀ qs, (getNode x qs).isSome = true → qs = []) :
    ∀ q, (getNode (Node.dir (insertChild ch name x)) q).isSome = true →
      (getNode (Node.dir ch) q).isSome = true ∨ q = [name] := by
  intro q hq
  cases q with
  | nil => exact Or.inl (by simp [getNode])
  | cons s qs =>
    simp only [getNode] at hq
    by_cases hs : s = name
    · subst hs
      rw [getChild_insertChild_self hg] at hq
      have : qs = [] := hnew qs hq
      subst this
      exact Or.inr rfl
    · rw [getChild_insertChild_ne hs] at hq
      exact Or.inl (by simp only [getNode]; exact hq)

lemma setfile_mono {ch : List (String × Node)} {name old : String} {x : Node}
    (hg : getChild ch name = some (Node.file old)) :
    ∀ q, (getNode (Node.dir ch) q).isSome = true →
      (getNode (Node.dir (setChild ch name x)) q).isSome = true := by
  intro q hq
  cases q with
  | nil => simp [getNode]
  | cons s qs =>
    simp only [getNode] at hq ⊢
    by_cases hs : s = name
    · subst hs
      rw [hg] at hq
      have : qs = [] := getNode_file hq
      subst this
      rw [getChild_setChild_self hg]
      simp [getNode]
    · rw [getChild_setChild_ne hs]
      exact hq

lemma setfile_rev {ch : List (String × Node)} {name old : String} {x : Node}
    (hg : getChild ch name = some (Node.file old))
    (hnew : ∀ qs, (getNode x qs).isSome = true → qs = []) :
    ∀ q, (getNode (Node.dir (setChild ch name x)) q).isSome = true →
      (getNode (Node.dir ch) q).isSome = true := by
  intro q hq
  cases q with
  | nil => simp [getNode]
  | cons s qs =>
    simp only [getNode] at hq ⊢
    by_cases hs : s = name
    · subst hs
      rw [getChild_setChild_self hg] at hq
      have : qs = [] := hnew qs hq
      subst this
      rw [hg]
      simp [getNode]
    · rw [getChild_setChild_ne hs] at hq
      exact hq

lemma mkdirChild_isdir (name : String) :
    ∀ m m2, mkdirChild name m = Except.ok m2 → isDirB m2 = true := by
  intro m m2 h
  obtain ⟨ch, _, _, hm2⟩ := mkdirChild_ok h
  subst hm2
  rfl

lemma mkdirChild_mono (name : String) :
    ∀ m m2, mkdirChild name m = Except.ok m2 →
      ∀ q, (getNode m q).isSome = true → (getNode m2 q).isSome = true := by
  intro m m2 h q hq
  obtain ⟨ch, hm, hg, hm2⟩ := mkdirChild_ok h
  subst hm; subst hm2
  exact insert_mono hg q hq

lemma mkdirChild_rev (name : String) :
    ∀ m m2 q, mkdirChild name m = Except.ok m2 →
      (getNode m2 q).isSome = true →
      (getNode m q).isSome = true ∨ q = [name] := by
  intro m m2 q h hq
  obtain ⟨ch, hm, hg, hm2⟩ := mkdirChild_ok h
  subst hm; subst hm2
  exact insert_rev hg (fun qs h2 => getNode_nil_dir h2) q hq

lemma mkdirChild_WF (name : String) :
    ∀ m m2, WFb m = true → mkdirChild name m = Except.ok m2 →
      WFb m2 = true := by
  intro m m2 hw h
  obtain ⟨ch, hm, hg, hm2⟩ := mkdirChild_ok h
  subst hm; subst hm2
  exact WFb_insertChild hw hg (by simp [WFb])

lemma touchChild_isdir (name : String) :
    ∀ m m2, touchChild name m = Except.ok m2 → isDirB m2 = true := by
  intro m m2 h
  obtain ⟨ch, _, hcase⟩ := touchChild_ok h
  rcases hcase with ⟨_, hm2⟩ | ⟨_, hm2⟩ <;> subst hm2 <;> rfl

lemma touchChild_mono (name : String) :
    ∀ m m2, touchChild name m = Except.ok m2 →
      ∀ q, (getNode m q).isSome = true → (getNode m2 q).isSome = true := by
  intro m m2 h q hq
  obtain ⟨ch, hm, hcase⟩ := touchChild_ok h
  subst hm
  rcases hcase with ⟨_, hm2⟩ | ⟨hg, hm2⟩ <;> subst hm2
  · exact hq
  · exact insert_mono hg q hq

lemma touchChild_rev (name : String) :
    ∀ m m2 q, touchChild name m = Except.ok m2 →
      (getNode m2 q).isSome = true →
      (getNode m q).isSome = true ∨ q = [name] := by
  intro m m2 q h hq
  obtain ⟨ch, hm, hcase⟩ := touchChild_ok h
  subst hm
  rcases hcase with ⟨_, hm2⟩ | ⟨hg, hm2⟩ <;> subst hm2
  · exact Or.inl hq
  · exact insert_rev hg (fun qs h2 => getNode_file h2) q hq

lemma touchChild_WF (name : String) :
    ∀ m m2, WFb m = true → touchChild name m = Except.ok m2 →
      WFb m2 = true := by
  intro m m2 hw h
  obtain ⟨ch, hm, hcase⟩ := touchChild_ok h
  subst hm
  rcases hcase with ⟨_, hm2⟩ | ⟨hg, hm2⟩ <;> subst hm2
  · exact hw
  · exact WFb_insertChild hw hg (by simp [WFb])

lemma writeChild_isdir (name content : String) (app : Bool) :
    ∀ m m2, writeChild name content app m = Except.ok m2 →
      isDirB m2 = true := by
  intro m m2 h
  obtain ⟨ch, _, hcase⟩ := writeChild_ok h
  rcases hcase with ⟨old, _, hm2⟩ | ⟨_, hm2⟩ <;> subst hm2 <;> rfl

lemma writeChild_mono (name content : String) (app : Bool) :
    ∀ m m2, writeChild name content app m = Except.ok m2 →
      ∀ q, (getNode m q).isSome = true → (getNode m2 q).isSome = true := by
  intro m m2 h q hq
  obtain ⟨ch, hm, hcase⟩ := writeChild_ok h
  subst hm
  rcases hcase with ⟨old, hg, hm2⟩ | ⟨hg, hm2⟩ <;> subst hm2
  · exact setfile_mono hg q hq
  · exact insert_mono hg q hq

lemma writeChild_rev (name content : String) (app : Bool) :
    ∀ m m2 q, writeChild name content app m = Except.ok m2 →
      (getNode m2 q).isSome = true →
      (getNode m q).isSome = true ∨ q = [name] := by
  intro m m2 q h hq
  obtain ⟨ch, hm, hcase⟩ := writeChild_ok h
  subst hm
  rcases hcase with ⟨old, hg, hm2⟩ | ⟨hg, hm2⟩ <;> subst hm2
  · exact Or.inl (setfile_rev hg (fun qs h2 => getNode_file h2) q hq)
  · exact insert_rev hg (fun qs h2 => getNode_file h2) q hq

lemma writeChild_WF (name content : String) (app : Bool) :
    ∀ m m2, WFb m = true → writeChild name content app m = Except.ok m2 →
      WFb m2 = true := by
  intro m m2 hw h
  obtain ⟨ch, hm, hcase⟩ := writeChild_ok h
  subst hm
  rcases hcase with ⟨old, hg, hm2⟩ | ⟨hg, hm2⟩ <;> subst hm2
  · exact WFb_setChild hw hg (by simp [WFb])
  · exact WFb_insertChild hw hg (by simp [WFb])

lemma mkdir_concat (fs : FileSystem) (pp : List String) (name : String) :
    FileSystem.mkdir fs (pp ++ [name]) =
      (match modifyAt fs.root pp (mkdirChild name) with
       | none => Except.error "mkdir: parent not found"
       | some (Except.error m) => Except.error m
       | some (Except.ok root2) => Except.ok ⟨root2⟩) := by
  unfold FileSystem.mkdir
  rw [List.getLast?_concat, List.dropLast_concat]

lemma touch_concat (fs : FileSystem) (pp : List String) (name : String) :
    FileSystem.touch fs (pp ++ [name]) =
      (match modifyAt fs.root pp (touchChild name) with
       | none => Except.error "touch: parent not found"
       | some (Except.error m) => Except.error m
       | some (Except.ok root2) => Except.ok ⟨root2⟩) := by
  unfold FileSystem.touch
  rw [List.getLast?_concat, List.dropLast_concat]

lemma write_concat (fs : FileSystem) (pp : List String) (name content : String)
    (app : Bool) :
    FileSystem.write_file fs (pp ++ [name]) content app =
      (match modifyAt fs.root pp (writeChild name content app) with
       | none => Except.error "echo: parent not found"
       | some (Except.error m) => Except.error m
       | some (Except.ok root2) => Except.ok ⟨root2⟩) := by
  unfold FileSystem.write_file
  rw [List.getLast?_concat, List.dropLast_concat]

lemma mkdir_ok_inv {fs fs2 : FileSystem} {p : List String}
    (h : FileSystem.mkdir fs p = Except.ok fs2) :
    ∃ name, p.getLast? = some name ∧
      modifyAt fs.root p.dropLast (mkdirChild name) =
        some (Except.ok fs2.root) := by
  unfold FileSystem.mkdir at h
  split at h
  · simp at h
  · rename_i name hl
    split at h
    · simp at h
    · simp at h
    · rename_i root2 hm
      simp only [Except.ok.injEq] at h
      subst h
      exact ⟨name, hl, hm⟩

lemma touch_ok_inv {fs fs2 : FileSystem} {p : List String}
    (h : FileSystem.touch fs p = Except.ok fs2) :
    ∃ name, p.getLast? = some name ∧
      modifyAt fs.root p.dropLast (touchChild name) =
        some (Except.ok fs2.root) := by
  unfold FileSystem.touch at h
  split at h
  · simp at h
  · rename_i name hl
    split at h
    · simp at h
    · simp at h
    · rename_i root2 hm
      simp only [Except.ok.injEq] at h
      subst h
      exact ⟨name, hl, hm⟩

lemma write_ok_inv {fs fs2 : FileSystem} {p : List String} {content : String}
    {app : Bool} (h : FileSystem.write_file fs p content app = Except.ok fs2) :
    ∃ name, p.getLast? = some name ∧
      modifyAt fs.root p.dropLast (writeChild name content app) =
        some (Except.ok fs2.root) := by
  unfold FileSystem.write_file at h
  split at h
  · simp at h
  · rename_i name hl
    split at h
    · simp at h
    · simp at h
    · rename_i root2 hm
      simp only [Except.ok.injEq] at h
      subst h
      exact ⟨name, hl, hm⟩

lemma mkdir_mono {fs fs2 : FileSystem} {p : List String}
    (h : FileSystem.mkdir fs p = Except.ok fs2) :
    ∀ q, (getNode fs.root q).isSome = true →
      (getNode fs2.root q).isSome = true := by
  obtain ⟨name, _, hm⟩ := mkdir_ok_inv h
  exact modifyAt_mono (mkdirChild_mono name) p.dropLast fs.root fs2.root hm

lemma touch_mono {fs fs2 : FileSystem} {p : List String}
    (h : FileSystem.touch fs p = Except.ok fs2) :
    ∀ q, (getNode fs.root q).isSome = true →
      (getNode fs2.root q).isSome = true := by
  obtain ⟨name, _, hm⟩ := touch_ok_inv h
  exact modifyAt_mono (touchChild_mono name) p.dropLast fs.root fs2.root hm

lemma write_mono {fs fs2 : FileSystem} {p : List String} {content : String}
    {app : Bool} (h : FileSystem.write_file fs p content app = Except.ok fs2) :
    ∀ q, (getNode fs.root q).isSome = true →
      (getNode fs2.root q).isSome = true := by
  obtain ⟨name, _, hm⟩ := write_ok_inv h
  exact modifyAt_mono (writeChild_mono name content app) p.dropLast
    fs.root fs2.root hm

lemma mkdir_WF {fs fs2 : FileSystem} {p : List String}
    (h : FileSystem.mkdir fs p = Except.ok fs2)
    (hw : WFb fs.root = true) : WFb fs2.root = true := by
  obtain ⟨name, _, hm⟩ := mkdir_ok_inv h
  exact modifyAt_WF (mkdirChild_WF name) p.dropLast fs.root fs2.root hm hw

lemma touch_WF {fs fs2 : FileSystem} {p : List String}
    (h : FileSystem.touch fs p = Except.ok fs2)
    (hw : WFb fs.root = true) : WFb fs2.root = true := by
  obtain ⟨name, _, hm⟩ := touch_ok_inv h
  exact modifyAt_WF (touchChild_WF name) p.dropLast fs.root fs2.root hm hw

lemma write_WF {fs fs2 : FileSystem} {p : List String} {content : String}
    {app : Bool} (h : FileSystem.write_file fs p content app = Except.ok fs2)
    (hw : WFb fs.root = true) : WFb fs2.root = true := by
  obtain ⟨name, _, hm⟩ := write_ok_inv h
  exact modifyAt_WF (writeChild_WF name content app) p.dropLast
    fs.root fs2.root hm hw

lemma mkdir_isdir {fs fs2 : FileSystem} {p : List String}
    (h : FileSystem.mkdir fs p = Except.ok fs2)
    (hd : isDirB fs.root = true) : isDirB fs2.root = true := by
  obtain ⟨name, _, hm⟩ := mkdir_ok_inv h
  cases hp : p.dropLast with
  | nil =>
    rw [hp] at hm
    simp only [modifyAt, Option.some.injEq] at hm
    exact mkdirChild_isdir name fs.root fs2.root hm
  | cons s rest =>
    rw [hp] at hm
    exact modifyAt_isdir (fun m m2 => mkdirChild_isdir name m m2)
      (s :: rest) fs.root fs2.root hm

lemma touch_isdir {fs fs2 : FileSystem} {p : List String}
    (h : FileSystem.touch fs p = Except.ok fs2)
    (hd : isDirB fs.root = true) : isDirB fs2.root = true := by
  obtain ⟨name, _, hm⟩ := touch_ok_inv h
  exact modifyAt_isdir (fun m m2 => touchChild_isdir name m m2)
    p.dropLast fs.root fs2.root hm

lemma write_isdir {fs fs2 : FileSystem} {p : List String} {content : String}
    {app : Bool} (h : FileSystem.write_file fs p content app = Except.ok fs2)
    (hd : isDirB fs.root = true) : isDirB fs2.root = true := by
  obtain ⟨name, _, hm⟩ := write_ok_inv h
  exact modifyAt_isdir (fun m m2 => writeChild_isdir name content app m m2)
    p.dropLast fs.root fs2.root hm

lemma runMkdir_append {cwd : List String} {bad : String} {m : String} :
    ∀ (pre : List String) (fs fs1 : FileSystem) (rest : List String),
      runMkdirArgs fs cwd pre = (fs1, none) →
      FileSystem.mkdir fs1 (resolve_path cwd bad) = Except.error m →
      runMkdirArgs fs cwd (pre ++ bad :: rest) = (fs1, some m) := by
  intro pre
  induction pre with
  | nil =>
    intro fs fs1 rest h hbad
    simp only [runMkdirArgs, Prod.mk.injEq] at h
    rw [← h.1] at hbad
    simp only [List.nil_append, runMkdirArgs, hbad]
    rw [h.1]
  | cons a pre ih =>
    intro fs fs1 rest h hbad
    simp only [runMkdirArgs] at h
    simp only [List.cons_append, runMkdirArgs]
    cases ha : FileSystem.mkdir fs (resolve_path cwd a) with
    | error m2 =>
      rw [ha] at h
      simp at h
    | ok fs2 =>
      rw [ha] at h
      exact ih fs2 fs1 rest h hbad

lemma runTouch_append {cwd : List String} {bad : String} {m : String} :
    ∀ (pre : List String) (fs fs1 : FileSystem) (rest : List String),
      runTouchArgs fs cwd pre = (fs1, none) →
      FileSystem.touch fs1 (resolve_path cwd bad) = Except.error m →
      runTouchArgs fs cwd (pre ++ bad :: rest) = (fs1, some m) := by
  intro pre
  induction pre with
  | nil =>
    intro fs fs1 rest h hbad
    simp only [runTouchArgs, Prod.mk.injEq] at h
    rw [← h.1] at hbad
    simp only [List.nil_append, runTouchArgs, hbad]
    rw [h.1]
  | cons a pre ih =>
    intro fs fs1 rest h hbad
    simp only [runTouchArgs] at h
    simp only [List.cons_append, runTouchArgs]
    cases ha : FileSystem.touch fs (resolve_path cwd a) with
    | error m2 =>
      rw [ha] at h
      simp at h
    | ok fs2 =>
      rw [ha] at h
      exact ih fs2 fs1 rest h hbad

lemma runMkdir_WF {cwd : List String} :
    ∀ (args : List String) (fs : FileSystem), WFb fs.root = true →
      WFb ((runMkdirArgs fs cwd args).1).root = true := by
  intro args
  induction args with
  | nil => intro fs hw; exact hw
  | cons a rest ih =>
    intro fs hw
    simp only [runMkdirArgs]
    cases ha : FileSystem.mkdir fs (resolve_path cwd a) with
    | error m => exact hw
    | ok fs2 => exact ih fs2 (mkdir_WF ha hw)

lemma runTouch_WF {cwd : List String} :
    ∀ (args : List String) (fs : FileSystem), WFb fs.root = true →
      WFb ((runTouchArgs fs cwd args).1).root = true := by
  intro args
  induction args with
  | nil => intro fs hw; exact hw
  | cons a rest ih =>
    intro fs hw
    simp only [runTouchArgs]
    cases ha : FileSystem.touch fs (resolve_path cwd a) with
    | error m => exact hw
    | ok fs2 => exact ih fs2 (touch_WF ha hw)

lemma runMkdir_mono {cwd : List String} :
    ∀ (args : List String) (fs : FileSystem) (q : List String),
      (getNode fs.root q).isSome = true →
      (getNode ((runMkdirArgs fs cwd args).1).root q).isSome = true := by
  intro args
  induction args with
  | nil => intro fs q hq; exact hq
  | cons a rest ih =>
    intro fs q hq
    simp only [runMkdirArgs]
    cases ha : FileSystem.mkdir fs (resolve_path cwd a) with
    | error m => exact hq
    | ok fs2 => exact ih fs2 q (mkdir_mono ha q hq)

lemma runTouch_mono {cwd : List String} :
    ∀ (args : List String) (fs : FileSystem) (q : List String),
      (getNode fs.root q).isSome = true →
      (getNode ((runTouchArgs fs cwd args).1).root q).isSome = true := by
  intro args
  induction args with
  | nil => intro fs q hq; exact hq
  | cons a rest ih =>
    intro fs q hq
    simp only [runTouchArgs]
    cases ha : FileSystem.touch fs (resolve_path cwd a) with
    | error m => exact hq
    | ok fs2 => exact ih fs2 q (touch_mono ha q hq)

lemma runMkdir_isdir {cwd : List String} :
    ∀ (args : List String) (fs : FileSystem), isDirB fs.root = true →
      isDirB ((runMkdirArgs fs cwd args).1).root = true := by
  intro args
  induction args with
  | nil => intro fs hd; exact hd
  | cons a rest ih =>
    intro fs hd
    simp only [runMkdirArgs]
    cases ha : FileSystem.mkdir fs (resolve_path cwd a) with
    | error m => exact hd
    | ok fs2 => exact ih fs2 (mkdir_isdir ha hd)

lemma runTouch_isdir {cwd : List String} :
    ∀ (args : List String) (fs : FileSystem), isDirB fs.root = true →
      isDirB ((runTouchArgs fs cwd args).1).root = true := by
  intro args
  induction args with
  | nil => intro fs hd; exact hd
  | cons a rest ih =>
    intro fs hd
    simp only [runTouchArgs]
    cases ha : FileSystem.touch fs (resolve_path cwd a) with
    | error m => exact hd
    | ok fs2 => exact ih fs2 (touch_isdir ha hd)

lemma catArgs_append {fs : FileSystem} {cwd : List String} {bad m : String} :
    ∀ (pre : List String) (ps : List String) (rest : List String),
      catArgs fs cwd pre = Except.ok ps →
      FileSystem.read_file fs (resolve_path cwd bad) = Except.error m →
      catArgs fs cwd (pre ++ bad :: rest) = Except.error m := by
  intro pre
  induction pre with
  | nil =>
    intro ps rest _ hbad
    simp only [List.nil_append, catArgs, hbad]
  | cons a pre ih =>
    intro ps rest h hbad
    simp only [catArgs] at h
    cases ha : FileSystem.read_file fs (resolve_path cwd a) with
    | error m2 => rw [ha] at h; simp at h
    | ok c =>
      rw [ha] at h
      cases hr : catArgs fs cwd pre with
      | error m2 => rw [hr] at h; simp at h
      | ok ps2 =>
        have hrw : catArgs fs cwd (List.append pre (bad :: rest)) =
            Except.error m := ih ps2 rest hr hbad
        simp only [List.cons_append, catArgs, ha, hrw]

lemma catArgs_get {fs : FileSystem} {cwd : List String} :
    ∀ (args ps : List String), catArgs fs cwd args = Except.ok ps →
      ∀ i a, args.get? i = some a →
        ∃ c, FileSystem.read_file fs (resolve_path cwd a) = Except.ok c ∧
          ps.get? i = some c := by
  intro args
  induction args with
  | nil => intro ps _ i a hi; simp at hi
  | cons a0 rest ih =>
    intro ps h i a hi
    simp only [catArgs] at h
    cases ha : FileSystem.read_file fs (resolve_path cwd a0) with
    | error m => rw [ha] at h; simp at h
    | ok c0 =>
      rw [ha] at h
      cases hr : catArgs fs cwd rest with
      | error m => rw [hr] at h; simp at h
      | ok ps2 =>
        rw [hr] at h
        simp only [Except.ok.injEq] at h
        subst h
        cases i with
        | zero =>
          simp only [List.get?] at hi
          cases hi
          exact ⟨c0, ha, rfl⟩
        | succ i =>
          simp only [List.get?] at hi ⊢
          exact ih ps2 hr i a hi

lemma catArgs_length {fs : FileSystem} {cwd : List String} :
    ∀ (args ps : List String), catArgs fs cwd args = Except.ok ps →
      ps.length = args.length := by
  intro args
  induction args with
  | nil => intro ps h; simp only [catArgs, Except.ok.injEq] at h; simp [← h]
  | cons a0 rest ih =>
    intro ps h
    simp only [catArgs] at h
    cases ha : FileSystem.read_file fs (resolve_path cwd a0) with
    | error m => rw [ha] at h; simp at h
    | ok c0 =>
      rw [ha] at h
      cases hr : catArgs fs cwd rest with
      | error m => rw [hr] at h; simp at h
      | ok ps2 =>
        rw [hr] at h
        simp only [Except.ok.injEq] at h
        subst h
        simp [ih ps2 hr]

lemma lsArm_fst (st : TerminalState) (args : List String) :
    (lsArm st args).1 = st := by
  unfold lsArm
  dsimp only
  split <;> rfl

lemma cdArm_fs (st : TerminalState) (args : List String) :
    ((cdArm st args).1).fs = st.fs := by
  unfold cdArm
  dsimp only
  split <;> rfl

lemma catArm_fst (st : TerminalState) (args : List String) :
    (catArm st args).1 = st := by
  unfold catArm
  by_cases h : args = []
  · simp [h]
  · rw [if_neg h]
    split <;> rfl

lemma mkdirArm_fs (st : TerminalState) (args : List String) :
    ((mkdirArm st args).1).fs = (runMkdirArgs st.fs st.cwd args).1 := by
  unfold mkdirArm
  by_cases h : args = []
  · simp [h, runMkdirArgs]
  · rw [if_neg h]
    dsimp only
    split <;> rfl

lemma touchArm_fs (st : TerminalState) (args : List String) :
    ((touchArm st args).1).fs = (runTouchArgs st.fs st.cwd args).1 := by
  unfold touchArm
  by_cases h : args = []
  · simp [h, runTouchArgs]
  · rw [if_neg h]
    dsimp only
    split <;> rfl

lemma echoArm_cases (st : TerminalState) (args : List String) :
    ((echoArm st args).1).fs = st.fs ∨
      ∃ path content app fs2,
        FileSystem.write_file st.fs path content app = Except.ok fs2 ∧
        ((echoArm st args).1).fs = fs2 := by
  unfold echoArm
  cases hf : args.findIdx? (fun t => t = ">" ∨ t = ">>") with
  | none => exact Or.inl rfl
  | some pos =>
    dsimp only
    by_cases hlen : args.length ≤ pos + 1
    · rw [if_pos hlen]
      exact Or.inl rfl
    · rw [if_neg hlen]
      cases hw : FileSystem.write_file st.fs
          (resolve_path st.cwd ((args.get? (pos + 1)).getD ""))
          (String.intercalate " " (args.take pos))
          (decide ((args.get? pos).getD "" = ">>")) with
      | error m => exact Or.inl rfl
      | ok fs2 => exact Or.inr ⟨_, _, _, fs2, hw, rfl⟩

lemma dispatch_WF (st : TerminalState) (cmd : String) (args : List String)
    (hw : WFb st.fs.root = true) :
    WFb (((dispatch st cmd args).1).fs).root = true := by
  unfold dispatch
  split_ifs
  · exact hw
  · exact hw
  · rw [lsArm_fst]; exact hw
  · rw [cdArm_fs]; exact hw
  · rw [mkdirArm_fs]; exact runMkdir_WF args st.fs hw
  · rw [touchArm_fs]; exact runTouch_WF args st.fs hw
  · rw [catArm_fst]; exact hw
  · rcases echoArm_cases st args with he | ⟨path, content, app, fs2, hwr, he⟩
    · rw [he]; exact hw
    · rw [he]; exact write_WF hwr hw
  · exact hw
  · exact hw

lemma dispatch_mono (st : TerminalState) (cmd : String) (args : List String)
    (q : List String) (hq : (getNode (st.fs).root q).isSome = true) :
    (getNode (((dispatch st cmd args).1).fs).root q).isSome = true := by
  unfold dispatch
  split_ifs
  · exact hq
  · exact hq
  · rw [lsArm_fst]; exact hq
  · rw [cdArm_fs]; exact hq
  · rw [mkdirArm_fs]; exact runMkdir_mono args st.fs q hq
  · rw [touchArm_fs]; exact runTouch_mono args st.fs q hq
  · rw [catArm_fst]; exact hq
  · rcases echoArm_cases st args with he | ⟨path, content, app, fs2, hwr, he⟩
    · rw [he]; exact hq
    · rw [he]; exact write_mono hwr q hq
  · exact hq
  · exact hq

lemma dispatch_isdir (st : TerminalState) (cmd : String) (args : List String)
    (hd : isDirB (st.fs).root = true) :
    isDirB (((dispatch st cmd args).1).fs).root = true := by
  unfold dispatch
  split_ifs
  · exact hd
  · exact hd
  · rw [lsArm_fst]; exact hd
  · rw [cdArm_fs]; exact hd
  · rw [mkdirArm_fs]; exact runMkdir_isdir args st.fs hd
  · rw [touchArm_fs]; exact runTouch_isdir args st.fs hd
  · rw [catArm_fst]; exact hd
  · rcases echoArm_cases st args with he | ⟨path, content, app, fs2, hwr, he⟩
    · rw [he]; exact hd
    · rw [he]; exact write_isdir hwr hd
  · exact hd
  · exact hd

lemma tokenize_empty : tokenize "" = Except.ok [] := rfl

lemma exec_tokens {st : TerminalState} {s : String} {cmd : String}
    {args : List String} (h : tokenize s = Except.ok (cmd :: args)) :
    execute_command st s = dispatch st cmd args := by
  have hs : ¬ s = "" := by
    intro hc
    rw [hc, tokenize_empty] at h
    simp at h
  unfold execute_command
  rw [if_neg hs, h]

lemma execute_WF (st : TerminalState) (s : String)
    (hw : WFb (st.fs).root = true) :
    WFb (((execute_command st s).1).fs).root = true := by
  by_cases hs : s = ""
  · subst hs
    exact hw
  · unfold execute_command
    rw [if_neg hs]
    cases ht : tokenize s with
    | error m => exact hw
    | ok toks =>
      cases toks with
      | nil => exact hw
      | cons cmd args => exact dispatch_WF st cmd args hw

lemma execute_mono (st : TerminalState) (s : String) (q : List String)
    (hq : (getNode (st.fs).root q).isSome = true) :
    (getNode (((execute_command st s).1).fs).root q).isSome = true := by
  by_cases hs : s = ""
  · subst hs
    exact hq
  · unfold execute_command
    rw [if_neg hs]
    cases ht : tokenize s with
    | error m => exact hq
    | ok toks =>
      cases toks with
      | nil => exact hq
      | cons cmd args => exact dispatch_mono st cmd args q hq

lemma execute_isdir (st : TerminalState) (s : String)
    (hd : isDirB (st.fs).root = true) :
    isDirB (((execute_command st s).1).fs).root = true := by
  by_cases hs : s = ""
  · subst hs
    exact hd
  · unfold execute_command
    rw [if_neg hs]
    cases ht : tokenize s with
    | error m => exact hd
    | ok toks =>
      cases toks with
      | nil => exact hd
      | cons cmd args => exact dispatch_isdir st cmd args hd

lemma modifyAt_ok_of {n : Node} {p : List String}
    {f : Node → Except String Node} {m m2 : Node}
    (hm : getNode n p = some m) (hf : f m = Except.ok m2) :
    ∃ n2, modifyAt n p f = some (Except.ok n2) ∧
      ∀ q, getNode n2 (p ++ q) = getNode m2 q := by
  cases hv : modifyAt n p f with
  | none =>
    rw [modifyAt_none_iff] at hv
    rw [hv] at hm
    cases hm
  | some r =>
    cases r with
    | error e =>
      rw [modifyAt_error_iff] at hv
      obtain ⟨m3, hm3, hf3⟩ := hv
      rw [hm] at hm3
      cases hm3
      rw [hf] at hf3
      cases hf3
    | ok n2 =>
      obtain ⟨m3, m4, hm3, hf3, hq⟩ := modifyAt_ok n p f n2 hv
      rw [hm] at hm3
      cases hm3
      rw [hf] at hf3
      cases hf3
      exact ⟨n2, rfl, hq⟩

lemma WFb_getNode :
    ∀ (p : List String) (n m : Node), WFb n = true →
      getNode n p = some m → WFb m = true := by
  intro p
  induction p with
  | nil =>
    intro n m hw h
    simp only [getNode, Option.some.injEq] at h
    rw [← h]
    exact hw
  | cons seg rest ih =>
    intro n m hw h
    cases n with
    | file c => simp [getNode] at h
    | dir children =>
      simp only [getNode] at h
      cases hg : getChild children seg with
      | none => rw [hg] at h; simp at h
      | some child =>
        rw [hg] at h
        exact ih child m (WFb_getChild hw hg) h

lemma getNode_concat_parent {root : Node} {pp : List String} {name : String}
    {x : Node} (h : getNode root (pp ++ [name]) = some x) :
    ∃ ch, getNode root pp = some (Node.dir ch) ∧ getChild ch name = some x := by
  rw [getNode_append] at h
  cases hp : getNode root pp with
  | none => rw [hp] at h; simp at h
  | some parent =>
    rw [hp] at h
    simp only [Option.some_bind] at h
    cases parent with
    | file c => simp [getNode] at h
    | dir ch =>
      simp only [getNode] at h
      cases hg : getChild ch name with
      | none => rw [hg] at h; simp at h
      | some child =>
        rw [hg] at h
        simp only [getNode, Option.some.injEq] at h
        rw [← h]
        exact ⟨ch, rfl, hg⟩

lemma touch_file_noop {fs : FileSystem} {pp : List String} {name c : String}
    (h : getNode fs.root (pp ++ [name]) = some (Node.file c)) :
    FileSystem.touch fs (pp ++ [name]) = Except.ok fs := by
  obtain ⟨ch, hp, hg⟩ := getNode_concat_parent h
  have hchild : touchChild name (Node.dir ch) = Except.ok (Node.dir ch) := by
    simp [touchChild, hg]
  have hid := modifyAt_id fs.root pp (touchChild name) (Node.dir ch) hp hchild
  rw [touch_concat, hid]

lemma tokenizeGo_error :
    ∀ (cs : List Char) (cur : String) (q : Option Char) (e : String),
      tokenizeGo cs cur q = Except.error e → e = "Unclosed quote" := by
  intro cs
  induction cs with
  | nil =>
    intro cur q e h
    cases q with
    | none =>
      simp [tokenizeGo] at h
    | some a =>
      simp only [tokenizeGo, Except.error.injEq] at h
      exact h.symm
  | cons ch rest ih =>
    intro cur q e h
    cases q with
    | some active =>
      simp only [tokenizeGo] at h
      split at h
      · exact ih _ _ _ h
      · exact ih _ _ _ h
    | none =>
      simp only [tokenizeGo] at h
      split at h
      · exact ih _ _ _ h
      · split at h
        · split at h
          · exact ih _ _ _ h
          · cases hr : tokenizeGo rest "" none with
            | error e2 =>
              rw [hr] at h
              simp only [Except.map] at h
              cases h
              exact ih _ _ _ hr
            | ok ts =>
              rw [hr] at h
              simp [Except.map] at h
        · exact ih _ _ _ h

lemma findIdx_marker :
    ∀ (pre : List String) (l : List String) (marker : String),
      (marker = ">" ∨ marker = ">>") →
      (∀ t ∈ pre, ¬(t = ">" ∨ t = ">>")) →
      (pre ++ marker :: l).findIdx? (fun t => t = ">" ∨ t = ">>") =
        some pre.length := by
  intro pre
  induction pre with
  | nil =>
    intro l marker hm _
    simp [List.findIdx?_cons, hm]
  | cons a pre ih =>
    intro l marker hm hpre
    have ha : ¬(a = ">" ∨ a = ">>") := hpre a (by simp)
    have hrest : ∀ t ∈ pre, ¬(t = ">" ∨ t = ">>") :=
      fun t ht => hpre t (by simp [ht])
    simp only [List.cons_append, List.findIdx?_cons, decide_eq_true_eq]
    rw [if_neg (by simpa using ha)]
    rw [List.findIdx?_succ, ih l marker hm hrest]
    simp

/-- C3: for every session state and every command input, the root stays a
Directory, well-formedness (hence uniqueness of every directory's child
names) is preserved, and every path defined before the command is still
defined after it — no command removes a node. -/
theorem command_preserves_invariants (st : TerminalState) (s : String) :
    (WFb st.fs.root = true →
      WFb ((execute_command st s).1).fs.root = true ∧
      uniqb ((execute_command st s).1).fs.root = true) ∧
    (isDirB st.fs.root = true →
      isDirB ((execute_command st s).1).fs.root = true) ∧
    (∀ p, (getNode st.fs.root p).isSome = true →
      (getNode ((execute_command st s).1).fs.root p).isSome = true) :=
  ⟨fun hw => ⟨execute_WF st s hw, WFb_uniq _ (execute_WF st s hw)⟩,
   fun hd => execute_isdir st s hd,
   fun p hp => execute_mono st s p hp⟩

theorem command_preserves_invariants_witness :
    WFb ((execute_command initialState "mkdir a").1).fs.root = true ∧
    uniqb ((execute_command initialState "mkdir a").1).fs.root = true ∧
    isDirB ((execute_command initialState "mkdir a").1).fs.root = true ∧
    (getNode ((execute_command initialState "mkdir a").1).fs.root []).isSome
      = true :=
  ⟨((command_preserves_invariants initialState "mkdir a").1
      (by simp [initialState, WFb])).1,
   ((command_preserves_invariants initialState "mkdir a").1
      (by simp [initialState, WFb])).2,
   (command_preserves_invariants initialState "mkdir a").2.1 rfl,
   (command_preserves_invariants initialState "mkdir a").2.2 [] rfl⟩

/-- C5: `mkdir` fails `mkdir: invalid path` on the empty path,
`mkdir: parent not found` when the parent does not resolve,
`mkdir: parent is not a directory` when the parent is a file,
`mkdir: already exists` when the final name is already bound (file or
directory); otherwise it inserts exactly one new empty directory (every
previously defined path stays defined, and every newly defined path is an old
one or the new directory's path). In particular `mkdir a/b` with `a` absent
fails with `mkdir: parent not found`. -/
theorem mkdir_spec (fs : FileSystem) (pp : List String) (name : String) :
    FileSystem.mkdir fs [] = Except.error "mkdir: invalid path" ∧
    (getNode fs.root pp = none →
      FileSystem.mkdir fs (pp ++ [name]) =
        Except.error "mkdir: parent not found") ∧
    (∀ c, getNode fs.root pp = some (Node.file c) →
      FileSystem.mkdir fs (pp ++ [name]) =
        Except.error "mkdir: parent is not a directory") ∧
    (∀ ch v, getNode fs.root pp = some (Node.dir ch) →
      getChild ch name = some v →
      FileSystem.mkdir fs (pp ++ [name]) =
        Except.error "mkdir: already exists") ∧
    (∀ ch, getNode fs.root pp = some (Node.dir ch) →
      getChild ch name = none →
      ∃ fs2, FileSystem.mkdir fs (pp ++ [name]) = Except.ok fs2 ∧
        getNode fs2.root (pp ++ [name]) = some (Node.dir []) ∧
        (∀ q, (getNode fs.root q).isSome = true →
          (getNode fs2.root q).isSome = true) ∧
        (∀ q, (getNode fs2.root q).isSome = true →
          (getNode fs.root q).isSome = true ∨ q = pp ++ [name])) ∧
    FileSystem.mkdir ⟨Node.dir []⟩ ["a", "b"] =
      Except.error "mkdir: parent not found" := by
  refine ⟨rfl, ?_, ?_, ?_, ?_, rfl⟩
  · intro h
    rw [mkdir_concat, (modifyAt_none_iff fs.root pp (mkdirChild name)).mpr h]
  · intro c h
    rw [mkdir_concat,
      (modifyAt_error_iff fs.root pp (mkdirChild name) _).mpr
        ⟨Node.file c, h, rfl⟩]
  · intro ch v h hg
    rw [mkdir_concat,
      (modifyAt_error_iff fs.root pp (mkdirChild name)
          "mkdir: already exists").mpr
        ⟨Node.dir ch, h, by simp [mkdirChild, hg]⟩]
  · intro ch h hg
    have hchild : mkdirChild name (Node.dir ch) =
        Except.ok (Node.dir (insertChild ch name (Node.dir []))) := by
      simp [mkdirChild, hg]
    obtain ⟨root2, hmod, hq⟩ := modifyAt_ok_of h hchild
    refine ⟨⟨root2⟩, by rw [mkdir_concat, hmod], ?_, ?_, ?_⟩
    · rw [hq [name]]
      simp [getNode, getChild_insertChild_self hg]
    · intro q hsome
      exact modifyAt_mono (mkdirChild_mono name) pp fs.root root2 hmod q hsome
    · intro q hsome
      rcases modifyAt_rev (fun q2 => q2 = [name]) (mkdirChild_rev name)
          pp fs.root root2 hmod q hsome with hl | ⟨q2, hq2, hp2⟩
      · exact Or.inl hl
      · subst hp2
        exact Or.inr hq2

theorem mkdir_spec_witness :
    FileSystem.mkdir ⟨Node.dir []⟩ (["x"] ++ ["y"]) =
      Except.error "mkdir: parent not found" :=
  (mkdir_spec ⟨Node.dir []⟩ ["x"] "y").2.1 rfl

/-- C6: `touch` on an existing file succeeds and leaves the whole tree
unchanged (so `touch` is idempotent: a second `touch` of a path it just
created or found succeeds with the same tree); on an existing directory it
fails `touch: is a directory`; on an absent name under an existing parent
directory it inserts an empty file. -/
theorem touch_spec (fs : FileSystem) (pp : List String) (name : String) :
    (∀ c, getNode fs.root (pp ++ [name]) = some (Node.file c) →
      FileSystem.touch fs (pp ++ [name]) = Except.ok fs) ∧
    (∀ ch, getNode fs.root (pp ++ [name]) = some (Node.dir ch) →
      FileSystem.touch fs (pp ++ [name]) =
        Except.error "touch: is a directory") ∧
    (∀ ch, getNode fs.root pp = some (Node.dir ch) →
      getChild ch name = none →
      ∃ fs2, FileSystem.touch fs (pp ++ [name]) = Except.ok fs2 ∧
        getNode fs2.root (pp ++ [name]) = some (Node.file "")) ∧
    (∀ fs2, FileSystem.touch fs (pp ++ [name]) = Except.ok fs2 →
      FileSystem.touch fs2 (pp ++ [name]) = Except.ok fs2) := by
  refine ⟨?_, ?_, ?_, ?_⟩
  · intro c h
    exact touch_file_noop h
  · intro ch h
    obtain ⟨ch2, hp, hg⟩ := getNode_concat_parent h
    rw [touch_concat,
      (modifyAt_error_iff fs.root pp (touchChild name)
          "touch: is a directory").mpr
        ⟨Node.dir ch2, hp, by simp [touchChild, hg]⟩]
  · intro ch h hg
    have hchild : touchChild name (Node.dir ch) =
        Except.ok (Node.dir (insertChild ch name (Node.file ""))) := by
      simp [touchChild, hg]
    obtain ⟨root2, hmod, hq⟩ := modifyAt_ok_of h hchild
    refine ⟨⟨root2⟩, by rw [touch_concat, hmod], ?_⟩
    rw [hq [name]]
    simp [getNode, getChild_insertChild_self hg]
  · intro fs2 h
    obtain ⟨name2, hl, hmod⟩ := touch_ok_inv h
    rw [List.getLast?_concat] at hl
    rw [List.dropLast_concat] at hmod
    cases hl
    obtain ⟨m, m2, hm, ht, hq⟩ := modifyAt_ok fs.root pp (touchChild name)
      fs2.root hmod
    obtain ⟨ch, hmch, hcase⟩ := touchChild_ok ht
    subst hmch
    rcases hcase with ⟨⟨c, hg⟩, hm2⟩ | ⟨hg, hm2⟩ <;> subst hm2
    · have hfile : getNode fs2.root (pp ++ [name]) = some (Node.file c) := by
        rw [hq [name]]
        simp [getNode, hg]
      exact touch_file_noop hfile
    · have hfile : getNode fs2.root (pp ++ [name]) = some (Node.file "") := by
        rw [hq [name]]
        simp [getNode, getChild_insertChild_self hg]
      exact touch_file_noop hfile

theorem touch_spec_witness :
    FileSystem.touch ⟨Node.dir [("f", Node.file "hi")]⟩ ([] ++ ["f"]) =
      Except.ok ⟨Node.dir [("f", Node.file "hi")]⟩ :=
  (touch_spec ⟨Node.dir [("f", Node.file "hi")]⟩ [] "f").1 "hi" rfl

lemma empty_string_append (s : String) : "" ++ s = s := by
  cases s with
  | mk d => rfl

lemma write_existing (fs : FileSystem) (pp : List String)
    (name content old : String) (app : Bool)
    (h : getNode fs.root (pp ++ [name]) = some (Node.file old)) :
    ∃ fs2, FileSystem.write_file fs (pp ++ [name]) content app =
        Except.ok fs2 ∧
      getNode fs2.root (pp ++ [name]) = some (Node.file
        (if app ∧ ¬ old = "" then old ++ "\n" ++ content
         else if ¬ app then content else old ++ content)) := by
  obtain ⟨ch, hp, hg⟩ := getNode_concat_parent h
  have hchild : writeChild name content app (Node.dir ch) =
      Except.ok (Node.dir (setChild ch name (Node.file
        (if app ∧ ¬ old = "" then old ++ "\n" ++ content
         else if ¬ app then content else old ++ content)))) := by
    simp only [writeChild, hg]
  obtain ⟨root2, hmod, hq⟩ := modifyAt_ok_of hp hchild
  refine ⟨⟨root2⟩, by rw [write_concat, hmod], ?_⟩
  rw [hq [name]]
  simp [getNode, getChild_setChild_self hg]

/-- C4: `write_file` with an existing directory parent creates the target
file when absent; with `append` it prefixes a single newline exactly when the
existing content is non-empty; without `append` it replaces the content; and
the concrete session `echo "hi" > f`, `cat f`, `echo "bye" >> f`, `cat f`
yields `hi` then `hi\nbye`. -/
theorem write_file_spec (fs : FileSystem) (pp : List String)
    (name content : String) :
    (∀ ch app, getNode fs.root pp = some (Node.dir ch) →
      getChild ch name = none →
      ∃ fs2, FileSystem.write_file fs (pp ++ [name]) content app =
          Except.ok fs2 ∧
        getNode fs2.root (pp ++ [name]) = some (Node.file content)) ∧
    (∀ old, getNode fs.root (pp ++ [name]) = some (Node.file old) →
      (∃ fs2, FileSystem.write_file fs (pp ++ [name]) content true =
          Except.ok fs2 ∧
        getNode fs2.root (pp ++ [name]) = some (Node.file
          (if old = "" then content else old ++ "\n" ++ content))) ∧
      (∃ fs2, FileSystem.write_file fs (pp ++ [name]) content false =
          Except.ok fs2 ∧
        getNode fs2.root (pp ++ [name]) = some (Node.file content))) ∧
    ((execute_command ((execute_command initialState
        "echo \"hi\" > f").1) "cat f").2).output = "hi" ∧
    ((execute_command ((execute_command ((execute_command initialState
        "echo \"hi\" > f").1) "echo \"bye\" >> f").1) "cat f").2).output =
      "hi\nbye" := by
  refine ⟨?_, ?_, rfl, rfl⟩
  · intro ch app hp hg
    have hchild : writeChild name content app (Node.dir ch) =
        Except.ok (Node.dir (insertChild ch name (Node.file content))) := by
      simp [writeChild, hg]
    obtain ⟨root2, hmod, hq⟩ := modifyAt_ok_of hp hchild
    refine ⟨⟨root2⟩, by rw [write_concat, hmod], ?_⟩
    rw [hq [name]]
    simp [getNode, getChild_insertChild_self hg]
  · intro old h
    constructor
    · obtain ⟨fs2, hw, hn⟩ := write_existing fs pp name content old true h
      refine ⟨fs2, hw, ?_⟩
      rw [hn]
      by_cases ho : old = ""
      · subst ho
        simp [empty_string_append]
      · simp [ho]
    · obtain ⟨fs2, hw, hn⟩ := write_existing fs pp name content old false h
      refine ⟨fs2, hw, ?_⟩
      rw [hn]
      simp

theorem write_file_spec_witness :
    getNode ((FileSystem.write_file ⟨Node.dir []⟩ ([] ++ ["f"]) "hi"
        false).toOption.getD ⟨Node.dir []⟩).root ([] ++ ["f"]) =
      some (Node.file "hi") := by
  obtain ⟨fs2, hw, hn⟩ :=
    (write_file_spec ⟨Node.dir []⟩ [] "f" "hi").1 [] false rfl rfl
  rw [hw]
  exact hn

/-- C8: `list` on a directory returns the children in strictly increasing
(lexicographic) key order — an invariant every command preserves — each name
suffixed `/` exactly when it is a directory, joined by two spaces (empty
directory: empty string); on a file it returns the path's final segment; on
an absent path it fails `Path not found`. -/
theorem ls_spec :
    (∀ st s, WFb st.fs.root = true →
      WFb ((execute_command st s).1).fs.root = true) ∧
    (∀ (fs : FileSystem) (p : List String) ch,
      WFb fs.root = true → getNode fs.root p = some (Node.dir ch) →
      FileSystem.list fs p = Except.ok (String.intercalate "  "
        (ch.map (fun e => e.1 ++ (if isDirB e.2 then "/" else "")))) ∧
      List.Chain' (fun a b => a < b) (ch.map Prod.fst)) ∧
    (∀ (fs : FileSystem) (p : List String) c,
      getNode fs.root p = some (Node.file c) →
      FileSystem.list fs p = Except.ok ((p.getLast?).getD "")) ∧
    (∀ (fs : FileSystem) (p : List String), getNode fs.root p = none →
      FileSystem.list fs p = Except.error "Path not found") ∧
    FileSystem.list ⟨Node.dir []⟩ [] = Except.ok "" ∧
    FileSystem.list ⟨Node.dir [("a", Node.dir []), ("b", Node.file "x")]⟩ []
      = Except.ok "a/  b" := by
  refine ⟨?_, ?_, ?_, ?_, rfl, rfl⟩
  · intro st s hw
    exact execute_WF st s hw
  · intro fs p ch hw h
    constructor
    · simp [FileSystem.list, h]
    · exact chain_of_WFb ch (WFb_getNode p fs.root (Node.dir ch) hw h)
  · intro fs p c h
    simp [FileSystem.list, h]
  · intro fs p h
    simp [FileSystem.list, h]

theorem ls_spec_witness :
    FileSystem.list ⟨Node.dir [("a", Node.dir []), ("b", Node.file "x")]⟩ []
      = Except.ok (String.intercalate "  "
        ([("a", Node.dir []), ("b", Node.file "x")].map
          (fun e => e.1 ++ (if isDirB e.2 then "/" else "")))) ∧
    List.Chain' (fun a b => a < b)
      ([("a", Node.dir []), ("b", Node.file "x")].map Prod.fst) :=
  ls_spec.2.1 ⟨Node.dir [("a", Node.dir []), ("b", Node.file "x")]⟩ []
    [("a", Node.dir []), ("b", Node.file "x")]
    (by simp [WFb]; decide) rfl

/-- C7: `cd` defaults its argument to `/` when absent; a file target reports
`Not a directory` and leaves the cwd unchanged; an absent target propagates
`Path not found` and leaves the cwd unchanged; a directory target replaces
the cwd with the resolved path and the response's cwd string is rendered
from the new cwd. -/
theorem cd_spec (st : TerminalState) (args : List String) :
    cdArm st [] = cdArm st ["/"] ∧
    (∀ c, getNode st.fs.root
        (resolve_path st.cwd ((args.get? 0).getD "/")) =
          some (Node.file c) →
      cdArm st args =
        (st, ⟨"Not a directory", st.cwd_string, "error", false⟩)) ∧
    (getNode st.fs.root (resolve_path st.cwd ((args.get? 0).getD "/")) =
        none →
      cdArm st args =
        (st, ⟨"Path not found", st.cwd_string, "error", false⟩)) ∧
    (∀ ch, getNode st.fs.root
        (resolve_path st.cwd ((args.get? 0).getD "/")) =
          some (Node.dir ch) →
      cdArm st args =
        ({ st with cwd := resolve_path st.cwd ((args.get? 0).getD "/") },
         ⟨"", TerminalState.cwd_string
            { st with cwd := resolve_path st.cwd ((args.get? 0).getD "/") },
          "ok", false⟩)) ∧
    (∀ s, tokenize s = Except.ok ("cd" :: args) →
      execute_command st s = cdArm st args) := by
  refine ⟨rfl, ?_, ?_, ?_, ?_⟩
  · intro c h
    simp only [List.get?_eq_getElem?] at h
    simp [cdArm, FileSystem.is_dir, h]
  · intro h
    simp only [List.get?_eq_getElem?] at h
    simp [cdArm, FileSystem.is_dir, h]
  · intro ch h
    simp only [List.get?_eq_getElem?] at h
    simp [cdArm, FileSystem.is_dir, h]
  · intro s hs
    rw [exec_tokens hs]
    rfl

theorem cd_spec_witness :
    cdArm ⟨⟨Node.dir [("f", Node.file "x")]⟩, []⟩ ["f"] =
      (⟨⟨Node.dir [("f", Node.file "x")]⟩, []⟩,
       ⟨"Not a directory",
        TerminalState.cwd_string ⟨⟨Node.dir [("f", Node.file "x")]⟩, []⟩,
        "error", false⟩) :=
  (cd_spec ⟨⟨Node.dir [("f", Node.file "x")]⟩, []⟩ ["f"]).2.1 "x" rfl

/-- C2: `cat` with no argument is rejected by the dispatcher (not stated
here); with arguments, reads happen left to right: a fully successful run
pairs each argument with its file's content in order and the command's output
joins them with single newlines, while a run whose reads succeed on a prefix
and then fail produces exactly the first failure's message, the collected
prefix being discarded. -/
theorem cat_first_failure (st : TerminalState) :
    (∀ pre ps bad rest m, catArgs st.fs st.cwd pre = Except.ok ps →
      FileSystem.read_file st.fs (resolve_path st.cwd bad) =
        Except.error m →
      catArgs st.fs st.cwd (pre ++ bad :: rest) = Except.error m) ∧
    (∀ args ps, catArgs st.fs st.cwd args = Except.ok ps →
      ps.length = args.length ∧
      ∀ i a, args.get? i = some a →
        ∃ c, FileSystem.read_file st.fs (resolve_path st.cwd a) =
            Except.ok c ∧
          ps.get? i = some c) ∧
    (∀ s args, tokenize s = Except.ok ("cat" :: args) → ¬ args = [] →
      (∀ ps, catArgs st.fs st.cwd args = Except.ok ps →
        execute_command st s =
          (st, ⟨String.intercalate "\n" ps, st.cwd_string, "ok", false⟩)) ∧
      (∀ m, catArgs st.fs st.cwd args = Except.error m →
        execute_command st s =
          (st, ⟨m, st.cwd_string, "error", false⟩))) := by
  refine ⟨?_, ?_, ?_⟩
  · intro pre ps bad rest m h hbad
    exact catArgs_append pre ps rest h hbad
  · intro args ps h
    exact ⟨catArgs_length args ps h, catArgs_get args ps h⟩
  · intro s args hs hargs
    have hd : execute_command st s = catArm st args := by
      rw [exec_tokens hs]
      rfl
    constructor
    · intro ps hps
      rw [hd]
      simp [catArm, hargs, hps]
    · intro m hm
      rw [hd]
      simp [catArm, hargs, hm]

theorem cat_first_failure_witness :
    catArgs ⟨Node.dir [("a", Node.file "A")]⟩ [] (["a"] ++ "b" :: []) =
      Except.error "cat: file not found" :=
  (cat_first_failure ⟨⟨Node.dir [("a", Node.file "A")]⟩, []⟩).1
    ["a"] ["A"] "b" [] "cat: file not found" rfl rfl

/-- C1: `mkdir`/`touch` with no argument reports `missing operand` and leaves
the state unchanged; with arguments, the loop applies them strictly left to
right: after a successfully applied prefix, the first failing argument stops
the loop, its message becomes the command's error output, and the filesystem
keeps exactly the prefix's effects (no rollback). -/
theorem mkdir_touch_first_failure (st : TerminalState) :
    (∀ s, tokenize s = Except.ok ["mkdir"] →
      execute_command st s =
        (st, ⟨"mkdir: missing operand", st.cwd_string, "error", false⟩)) ∧
    (∀ s, tokenize s = Except.ok ["touch"] →
      execute_command st s =
        (st, ⟨"touch: missing operand", st.cwd_string, "error", false⟩)) ∧
    (∀ pre fs1 bad rest m, runMkdirArgs st.fs st.cwd pre = (fs1, none) →
      FileSystem.mkdir fs1 (resolve_path st.cwd bad) = Except.error m →
      runMkdirArgs st.fs st.cwd (pre ++ bad :: rest) = (fs1, some m)) ∧
    (∀ pre fs1 bad rest m, runTouchArgs st.fs st.cwd pre = (fs1, none) →
      FileSystem.touch fs1 (resolve_path st.cwd bad) = Except.error m →
      runTouchArgs st.fs st.cwd (pre ++ bad :: rest) = (fs1, some m)) ∧
    (∀ s args, tokenize s = Except.ok ("mkdir" :: args) → ¬ args = [] →
      ((execute_command st s).1).fs = (runMkdirArgs st.fs st.cwd args).1 ∧
      (∀ m, (runMkdirArgs st.fs st.cwd args).2 = some m →
        ((execute_command st s).2).output = m ∧
        ((execute_command st s).2).status = "error") ∧
      ((runMkdirArgs st.fs st.cwd args).2 = none →
        ((execute_command st s).2).output = "" ∧
        ((execute_command st s).2).status = "ok")) ∧
    (∀ s args, tokenize s = Except.ok ("touch" :: args) → ¬ args = [] →
      ((execute_command st s).1).fs = (runTouchArgs st.fs st.cwd args).1 ∧
      (∀ m, (runTouchArgs st.fs st.cwd args).2 = some m →
        ((execute_command st s).2).output = m ∧
        ((execute_command st s).2).status = "error") ∧
      ((runTouchArgs st.fs st.cwd args).2 = none →
        ((execute_command st s).2).output = "" ∧
        ((execute_command st s).2).status = "ok")) := by
  refine ⟨?_, ?_, ?_, ?_, ?_, ?_⟩
  · intro s hs
    rw [exec_tokens hs]
    rfl
  · intro s hs
    rw [exec_tokens hs]
    rfl
  · intro pre fs1 bad rest m h hbad
    exact runMkdir_append pre st.fs fs1 rest h hbad
  · intro pre fs1 bad rest m h hbad
    exact runTouch_append pre st.fs fs1 rest h hbad
  · intro s args hs hargs
    have hd : execute_command st s = mkdirArm st args := by
      rw [exec_tokens hs]
      rfl
    rw [hd]
    refine ⟨mkdirArm_fs st args, ?_, ?_⟩
    · intro m hm
      simp [mkdirArm, hargs, hm]
    · intro hm
      simp [mkdirArm, hargs, hm]
  · intro s args hs hargs
    have hd : execute_command st s = touchArm st args := by
      rw [exec_tokens hs]
      rfl
    rw [hd]
    refine ⟨touchArm_fs st args, ?_, ?_⟩
    · intro m hm
      simp [touchArm, hargs, hm]
    · intro hm
      simp [touchArm, hargs, hm]

theorem mkdir_touch_first_failure_witness :
    runMkdirArgs ⟨Node.dir []⟩ [] (["a"] ++ "a" :: ["b"]) =
      (⟨Node.dir [("a", Node.dir [])]⟩, some "mkdir: already exists") :=
  (mkdir_touch_first_failure ⟨⟨Node.dir []⟩, []⟩).2.2.1
    ["a"] ⟨Node.dir [("a", Node.dir [])]⟩ "a" ["b"]
    "mkdir: already exists" rfl rfl

/-- C10: in an `echo` whose arguments contain a redirect marker, only the
token immediately after the first `>`/`>>` is used, as the target path; the
written content is exactly the tokens before that marker joined by single
spaces, and every token after the target — further markers included — is
ignored: the command behaves identically with or without them, producing no
output and no error on a successful write. -/
theorem echo_redirect_spec (st : TerminalState) (pre : List String)
    (marker target : String) (rest : List String)
    (hm : marker = ">" ∨ marker = ">>")
    (hpre : ∀ t ∈ pre, ¬(t = ">" ∨ t = ">>")) :
    echoArm st (pre ++ marker :: target :: rest) =
      (match FileSystem.write_file st.fs (resolve_path st.cwd target)
          (String.intercalate " " pre) (decide (marker = ">>")) with
       | Except.error m => (st, ⟨m, st.cwd_string, "error", false⟩)
       | Except.ok fs2 =>
         ({ st with fs := fs2 },
          ⟨"", TerminalState.cwd_string { st with fs := fs2 },
           "ok", false⟩)) ∧
    echoArm st (pre ++ marker :: target :: rest) =
      echoArm st (pre ++ [marker, target]) ∧
    (∀ s, tokenize s =
        Except.ok ("echo" :: (pre ++ marker :: target :: rest)) →
      execute_command st s = echoArm st (pre ++ marker :: target :: rest)) := by
  have key : ∀ rest2 : List String,
      echoArm st (pre ++ marker :: target :: rest2) =
        (match FileSystem.write_file st.fs (resolve_path st.cwd target)
            (String.intercalate " " pre) (decide (marker = ">>")) with
         | Except.error m => (st, ⟨m, st.cwd_string, "error", false⟩)
         | Except.ok fs2 =>
           ({ st with fs := fs2 },
            ⟨"", TerminalState.cwd_string { st with fs := fs2 },
             "ok", false⟩)) := by
    intro rest2
    have hfind := findIdx_marker pre (target :: rest2) marker hm hpre
    have hlen : ¬ (pre ++ marker :: target :: rest2).length ≤
        pre.length + 1 := by
      simp [List.length_append]
    have htake : (pre ++ marker :: target :: rest2).take pre.length = pre :=
      List.take_left pre (marker :: target :: rest2)
    have hgetm : (pre ++ marker :: target :: rest2).get? pre.length =
        some marker := by
      rw [List.get?_append_right (Nat.le_refl pre.length)]
      simp
    have hgett : (pre ++ marker :: target :: rest2).get? (pre.length + 1) =
        some target := by
      rw [List.get?_append_right (Nat.le_succ_of_le (Nat.le_refl _))]
      simp
    unfold echoArm
    rw [hfind]
    dsimp only
    rw [if_neg hlen, htake, hgetm, hgett]
    rfl
  refine ⟨key rest, (key rest).trans (key []).symm, ?_⟩
  intro s hs
  rw [exec_tokens hs]
  rfl

theorem echo_redirect_spec_witness :
    echoArm initialState (["hi"] ++ ">" :: "f" :: [">>", "junk"]) =
      echoArm initialState (["hi"] ++ [">", "f"]) :=
  (echo_redirect_spec initialState ["hi"] ">" "f" [">>", "junk"]
    (Or.inl rfl) (by decide)).2.1

lemma push_eq_append (cur : String) (c : Char) :
    cur.push c = cur ++ String.singleton c := by
  cases cur with
  | mk d => rfl

lemma push_ne_empty (cur : String) (c : Char) : ¬ cur.push c = "" := by
  cases cur with
  | mk d =>
    intro h
    have hd : d ++ [c] = [] := congrArg String.data h
    simp at hd

lemma singleton_ne_empty (c : Char) : ¬ String.singleton c = "" := by
  intro h
  have hd : [c] = [] := congrArg String.data h
  simp at hd

lemma exceptMap_map {α β γ : Type} (e : Except String α) (f : α → β)
    (g : β → γ) : (e.map f).map g = e.map (fun a => g (f a)) := by
  cases e <;> rfl

lemma exceptMap_congr {α β : Type} {e : Except String α} {f g : α → β}
    (h : ∀ a, f a = g a) : e.map f = e.map g := by
  cases e with
  | error m => rfl
  | ok a => simp [Except.map, h]

lemma exceptMap_error_iff {α β : Type} (e : Except String α) (f : α → β) :
    (∃ m, e.map f = Except.error m) ↔ (∃ m, e = Except.error m) := by
  cases e <;> simp [Except.map]

lemma mergeCur_nil_str (anns : List AnnChar) :
    mergeCur "" anns = specSplit anns := by
  simp [mergeCur]

lemma mergeCur_sep {cur : String} (hcur : ¬ cur = "") (anns : List AnnChar) :
    mergeCur cur (AnnChar.sep :: anns) = cur :: specSplit anns := by
  simp [mergeCur, hcur, specSplit]

lemma specSplit_lit (c : Char) (anns : List AnnChar) :
    specSplit (AnnChar.lit c :: anns) = mergeCur (String.singleton c) anns := by
  have hne := singleton_ne_empty c
  cases anns with
  | nil => simp [specSplit, mergeCur, hne]
  | cons a rest =>
    cases a with
    | sep => simp [specSplit, mergeCur, hne]
    | lit d => simp [specSplit, mergeCur, hne]

lemma mergeCur_lit {cur : String} (hcur : ¬ cur = "") (d : Char)
    (rest : List AnnChar) :
    mergeCur cur (AnnChar.lit d :: rest) =
      (match specSplit (AnnChar.lit d :: rest) with
       | t :: ts => (cur ++ t) :: ts
       | [] => [cur]) := by
  simp only [mergeCur, if_neg hcur]

lemma specSplit_lit_lit (c d : Char) (rest : List AnnChar) :
    specSplit (AnnChar.lit c :: AnnChar.lit d :: rest) =
      (match specSplit (AnnChar.lit d :: rest) with
       | t :: ts => (String.singleton c ++ t) :: ts
       | [] => [String.singleton c]) := rfl

lemma mergeCur_push (cur : String) (c : Char) (anns : List AnnChar) :
    mergeCur (cur.push c) anns = mergeCur cur (AnnChar.lit c :: anns) := by
  have hne := push_ne_empty cur c
  by_cases hcur : cur = ""
  · subst hcur
    have hpc : "".push c = String.singleton c := rfl
    rw [hpc, ← specSplit_lit, mergeCur_nil_str]
  · have hne2 : ¬ cur ++ String.singleton c = "" := by
      rw [← push_eq_append]
      exact hne
    cases anns with
    | nil =>
      simp [mergeCur, hne2, hcur, specSplit, push_eq_append]
    | cons a rest =>
      cases a with
      | sep =>
        simp [mergeCur, hne2, hcur, specSplit, push_eq_append]
      | lit d =>
        rw [mergeCur_lit hne d rest, mergeCur_lit hcur c (AnnChar.lit d :: rest),
          specSplit_lit_lit]
        cases hs : specSplit (AnnChar.lit d :: rest) with
        | nil => simp [push_eq_append]
        | cons t ts => simp [push_eq_append, String.append_assoc]

lemma tokenizeGo_spec :
    ∀ (cs : List Char) (cur : String) (q : Option Char),
      tokenizeGo cs cur q = (specScan cs q).map (mergeCur cur) := by
  intro cs
  induction cs with
  | nil =>
    intro cur q
    cases q with
    | some a => rfl
    | none =>
      by_cases hcur : cur = ""
      · simp [tokenizeGo, specScan, mergeCur, hcur, Except.map, specSplit]
      · simp [tokenizeGo, specScan, mergeCur, hcur, Except.map, specSplit]
  | cons c rest ih =>
    intro cur q
    cases q with
    | some active =>
      by_cases hc : c = active
      · simp only [tokenizeGo, specScan, if_pos hc]
        exact ih cur none
      · simp only [tokenizeGo, specScan, if_neg hc]
        rw [ih (cur.push c) (some active), exceptMap_map]
        exact exceptMap_congr (fun anns => mergeCur_push cur c anns)
    | none =>
      by_cases hq : c = Char.ofNat 39 ∨ c = '"'
      · simp only [tokenizeGo, specScan, if_pos hq]
        exact ih cur (some c)
      · by_cases hw : isRustWhitespace c
        · simp only [tokenizeGo, specScan, if_neg hq, if_pos hw]
          by_cases hcur : cur = ""
          · rw [if_pos hcur, ih "" none, exceptMap_map]
            subst hcur
            refine exceptMap_congr (fun anns => ?_)
            rw [mergeCur_nil_str, mergeCur_nil_str]
            simp [specSplit]
          · rw [if_neg hcur, ih "" none]
            cases he : specScan rest none with
            | error m => rfl
            | ok anns =>
              simp only [Except.map]
              rw [mergeCur_nil_str, mergeCur_sep hcur]
        · simp only [tokenizeGo, specScan, if_neg hq, if_neg hw]
          rw [ih (cur.push c) none, exceptMap_map]
          exact exceptMap_congr (fun anns => mergeCur_push cur c anns)

lemma specScan_error_iff :
    ∀ (cs : List Char) (q : Option Char),
      (∃ e, specScan cs q = Except.error e) ↔ ¬ quoteState cs q = none := by
  intro cs
  induction cs with
  | nil =>
    intro q
    cases q with
    | none => simp [specScan, quoteState]
    | some a => simp [specScan, quoteState]
  | cons c rest ih =>
    intro q
    cases q with
    | some active =>
      by_cases hc : c = active
      · simp only [specScan, quoteState, if_pos hc]
        exact ih none
      · simp only [specScan, quoteState, if_neg hc]
        rw [exceptMap_error_iff]
        exact ih (some active)
    | none =>
      by_cases hq : c = Char.ofNat 39 ∨ c = '"'
      · simp only [specScan, quoteState, if_pos hq]
        exact ih (some c)
      · by_cases hw : isRustWhitespace c
        · simp only [specScan, quoteState, if_neg hq, if_pos hw]
          rw [exceptMap_error_iff]
          exact ih none
        · simp only [specScan, quoteState, if_neg hq, if_neg hw]
          rw [exceptMap_error_iff]
          exact ih none

/-- C9: for every input string the tokenizer equals the specification's
two-phase description — `specScan` resolves quote spans (a single or double
quote opens a literal span closed only by the next occurrence of the same
character, quote characters are dropped, no escape sequences exist) and
marks unquoted whitespace as separators, `specSplit` then splits on runs of
separators — and it fails, with `Unclosed quote` as the only error and no
tokens produced, exactly when the input ends while a quote span is open (the
`quoteState` automaton ends in an open state). The concrete evaluations
exhibit the clauses, including the Unicode whitespace characters
U+000B/U+000C and a single-quote span written via code point 39. -/
theorem tokenize_spec :
    (∀ s : String, tokenize s = (specScan s.data none).map specSplit) ∧
    (∀ s : String, (∃ e, tokenize s = Except.error e) ↔
      ¬ quoteState s.data none = none) ∧
    (∀ s e, tokenize s = Except.error e → e = "Unclosed quote") ∧
    tokenize "echo \"a b\" c" = Except.ok ["echo", "a b", "c"] ∧
    tokenize "echo \"a" = Except.error "Unclosed quote" ∧
    tokenize "a \x0B\x0C b" = Except.ok ["a", "b"] ∧
    tokenize ("x" ++ String.singleton (Char.ofNat 39) ++ "a \"b" ++
        String.singleton (Char.ofNat 39) ++ "y z") =
      Except.ok ["xa \"by", "z"] ∧
    tokenize "a\\ b" = Except.ok ["a\\", "b"] := by
  refine ⟨?_, ?_, fun s e h => tokenizeGo_error s.data "" none e h,
    by decide, by decide, by decide, by decide, by decide⟩
  · intro s
    rw [tokenize, tokenizeGo_spec]
    exact exceptMap_congr (fun anns => mergeCur_nil_str anns)
  · intro s
    rw [tokenize, tokenizeGo_spec, exceptMap_error_iff]
    exact specScan_error_iff s.data none

theorem tokenize_spec_witness :
    tokenize "\"a" = Except.error "Unclosed quote" ∧
    ¬ quoteState "\"a".data none = none :=
  ⟨by decide, (tokenize_spec.2.1 "\"a").mp ⟨"Unclosed quote", by decide⟩⟩
